import Mathlib

/-!
Verification of the ownership / value-semantics core of the Halide IR
(`src/IntrusivePtr.h`, `src/Expr.h`, `src/Schedule.cpp`, `src/Reduction.cpp`)
against its specification.

The C++ code is shallowly embedded: heaps of reference-counted objects are
association lists from addresses (`Nat`, with `0` playing the role of the
null pointer) to node contents, each node storing its own (intrusive) count
as an `Int`, exactly as `RefCounted` stores a signed `ref_count`.
-/

set_option linter.unusedVariables false

namespace HalideModel

/-!
## Association-list helpers shared by the heap models

`alookup`, `aset` and `aremove` act on the first entry with the given key,
which coincides with ordinary map behaviour on the duplicate-free heaps the
operational models produce.
-/

def alookup {β : Type _} : List (Nat × β) → Nat → Option β
  | [], _ => none
  | e :: t, a => if e.1 = a then some e.2 else alookup t a

def aset {β : Type _} : List (Nat × β) → Nat → β → List (Nat × β)
  | [], _, _ => []
  | e :: t, a, v => if e.1 = a then (a, v) :: t else e :: aset t a v

def aremove {β : Type _} : List (Nat × β) → Nat → List (Nat × β)
  | [], _ => []
  | e :: t, a => if e.1 = a then t else e :: aremove t a

def akeys {β : Type _} (h : List (Nat × β)) : List Nat := h.map Prod.fst

/-!
## IRHandle: RTTI-free downcasting and identity comparison (`src/Expr.h`)

Concrete node kinds and their unique static tags.  Each concrete node class
has exactly one static `IRNodeType _node_type`; tag comparison by address in
the C++ is modelled by equality of the enumeration below (two distinct static
objects never compare equal, two references to the same static always do).
-/

namespace IRH

inductive IRNodeType where
  | IntImmT
  | FloatImmT
  | StringImmT
deriving DecidableEq

/-- The concrete IR node kinds defined in `src/Expr.h`: integer, float and
string constants, each carrying its payload. -/
inductive IRNodeV where
  | intImm (value : Int)
  | floatImm (value : Int)
  | stringImm (value : String)
deriving DecidableEq

/-- The virtual `node_type()` override produced by the `ExprNode<T>` CRTP
adapter: each concrete class reports the address of its own static tag. -/
def nodeTypeOf : IRNodeV → IRNodeType
  | .intImm _ => .IntImmT
  | .floatImm _ => .FloatImmT
  | .stringImm _ => .StringImmT

/-- Memory holding the IR nodes: address (`0` = NULL) to node contents. -/
def NodeHeap : Type := Nat → Option IRNodeV

/-- An `IRHandle` wraps an `IntrusivePtr<const IRNode>`: the raw pointer,
with `0` for NULL (an undefined handle). -/
structure IRHandle where
  ptr : Nat
deriving DecidableEq

/-- The body of `IRHandle::node_type` is `return ptr->node_type();`, with no
null check: on an undefined handle (and on a dangling pointer) this is a
null/invalid dereference, modelled as `Except.error ()`. -/
def IRHandle.node_type (heap : NodeHeap) (h : IRHandle) : Except Unit IRNodeType :=
  if h.ptr = 0 then Except.error ()
  else
    match heap h.ptr with
    | some n => Except.ok (nodeTypeOf n)
    | none => Except.error ()

/-- The body of `IRHandle::as<T>`: `if (node_type() == &T::_node_type) return
(const T *)(get()); return NULL;`.  The returned value is `ok (some p)` for a
successful downcast to the node at address `p`, `ok none` for the NULL
"not this type" result, and `error` when `node_type()` faults. -/
def IRHandle.as (heap : NodeHeap) (T : IRNodeType) (h : IRHandle) :
    Except Unit (Option Nat) :=
  match IRHandle.node_type heap h with
  | Except.error e => Except.error e
  | Except.ok t => if t = T then Except.ok (some h.ptr) else Except.ok none

/-- `IntrusivePtr::same_as`: equality of the raw pointers. -/
def IRHandle.same_as (a b : IRHandle) : Bool := a.ptr == b.ptr

/-- `IRHandle::Compare`: `a.ptr < b.ptr` on the raw pointers, as used for
`std::set` / `std::map` keys. -/
def IRHandle.Compare (a b : IRHandle) : Bool := decide (a.ptr < b.ptr)

/-- An empty memory, for the concrete undefined-handle evaluation. -/
def emptyHeap : NodeHeap := fun _ => none

/-- A one-node memory holding the integer constant `3` at address `1`. -/
def oneNodeHeap : NodeHeap := fun a => if a = 1 then some (IRNodeV.intImm 3) else none

end IRH

/-!
## IntImm interning (`src/Expr.h`, `IntImm::make`)

The static pool `IntImm small_int_cache[17]` is declared in `src/Expr.h` but
its definition and initialisation live in `IR.cpp`, which is not part of the
sources; the cache state is therefore modelled from the spec (see
`IntImmAlloc.initState`).  Addresses `1..17` are the (static) addresses of the
cache entries; fresh heap allocations start above them.
-/

namespace IntImmAlloc

/-- Address of the static cache entry `small_int_cache[k]`. -/
def cacheAddr (k : Nat) : Nat := k + 1

/-- Allocation state: the reference counts of the 17 static cache entries
(indexed `0..16`), the heap of dynamically allocated `IntImm` nodes, and the
next fresh heap address. -/
structure AllocState where
  cacheRef : Nat → Int
  heap : List (Nat × Int)
  next : Nat

/-- Modelled from the spec: the static initialisation of `small_int_cache`
is in `IR.cpp`, which is not under the given sources.  Per the spec, the pool
entries are pre-built constants "with a permanently incremented reference
count", so every entry starts with a nonzero count. -/
def initState : AllocState := { cacheRef := fun _ => 1, heap := [], next := 18 }

/-- The value stored in cache entry `k`.  Modelled from the spec: entry
`value + 8` serves value `value`, so entry `k` holds `k - 8`. -/
def cacheVal (k : Nat) : Int := (k : Int) - 8

/-- `IntImm::make`: if `value >= -8 && value <= 8 &&
small_int_cache[value + 8].ref_count` (nonzero), return the address of the
shared cached instance; otherwise `new IntImm` with the requested value.
Returns the address of the resulting node. -/
def IntImm.make (st : AllocState) (value : Int) : Nat × AllocState :=
  if -8 ≤ value ∧ value ≤ 8 ∧ st.cacheRef (value + 8).toNat ≠ 0 then
    (cacheAddr (value + 8).toNat, st)
  else
    (st.next, { st with heap := (st.next, value) :: st.heap, next := st.next + 1 })

/-- `IntrusivePtr::same_as` on the handles adopting the two nodes: pointer
equality. -/
def sameAs (a b : Nat) : Bool := a == b

end IntImmAlloc

/-!
## Expr construction from a double (`src/Expr.h`, `Expr::Expr(double)`)

The constructor narrows to `float`, builds a `FloatImm` through
`FloatImm::make` (which always allocates a fresh node), and streams exactly
one `user_warning` reporting the original value and a suggested
`cast<double>(...)` spelling.  Double and float values are abstracted to type
parameters `D` and `F` with the narrowing conversion `(float)x` an arbitrary
function `narrow`, and the `x == (int64_t)(x)` integrality test a predicate
`isIntegral`.
-/

namespace FloatNarrow

/-- One `user_warning` record emitted by `Expr::Expr(double)`: it reports the
original double value and the suffix chosen for the suggested
`cast<double>(x...)` spelling (`".0f"` for exact integral doubles, `"f"`
otherwise). -/
structure Warning (D : Type _) where
  original : D
  castSuffix : String
deriving DecidableEq

/-- Program state: the heap of allocated `FloatImm` nodes (address to stored
float value), the next fresh address, and the stream of warnings emitted so
far. -/
structure EState (D F : Type _) where
  heap : List (Nat × F)
  next : Nat
  warnings : List (Warning D)

/-- `FloatImm::make`: always allocates a fresh node holding the given float
value (no interning). -/
def FloatImm.make {D F : Type _} (st : EState D F) (v : F) : Nat × EState D F :=
  (st.next, { st with heap := (st.next, v) :: st.heap, next := st.next + 1 })

/-- `Expr::Expr(double x)`: constructs from `FloatImm::make((float)x)` and
emits one warning `"Halide cannot represent double constants. Converting x to
float. If you wanted a double, use cast<double>(x[.0f|f])"`.  Returns the
address the handle adopts. -/
def exprOfDouble {D F : Type _} (narrow : D → F) (isIntegral : D → Bool)
    (st : EState D F) (x : D) : Nat × EState D F :=
  let r := FloatImm.make st (narrow x)
  (r.1, { r.2 with
          warnings := r.2.warnings ++
            [{ original := x, castSuffix := if isIntegral x then ".0f" else "f" }] })

end FloatNarrow

/-!
## ReductionDomain (`src/Reduction.cpp`)

`ReductionDomainContents : RefCounted` holds a `std::vector<ReductionVariable>
domain`; `ReductionDomain` is an `IntrusivePtr` handle to it.  The descriptor
type `ReductionVariable` is declared in `Reduction.h`, which is not under the
given sources, so it is abstracted to an arbitrary type parameter `V` — the
claims never inspect individual descriptors, only whole variable lists.
Handles live in a register file; `0` is the null pointer.
-/

namespace RD

/-- `ReductionDomainContents`: the intrusive `ref_count` inherited from
`RefCounted` plus the ordered variable list. -/
structure RDContents (V : Type _) where
  ref_count : Int
  domain : List V
deriving DecidableEq

structure RDState (V : Type _) where
  heap : List (Nat × RDContents V)
  next : Nat
  regs : List Nat

/-- `IntrusivePtr::incref`: null pointers are skipped; otherwise the count
stored in the pointed-to contents object is incremented.  (Increfing a
dangling pointer would be a use-after-free; it cannot occur in well-formed
states and is modelled as a no-op.) -/
def rincref {V : Type _} (h : List (Nat × RDContents V)) (a : Nat) :
    List (Nat × RDContents V) :=
  if a = 0 then h
  else
    match alookup h a with
    | none => h
    | some c => aset h a { c with ref_count := c.ref_count + 1 }

/-- `IntrusivePtr::decref`: `ref_count--; if (ref_count == 0) delete this;`.
A `ReductionDomainContents` owns no further reference-counted members, so its
destruction removes the entry and cascades no further. -/
def rdecref {V : Type _} (h : List (Nat × RDContents V)) (a : Nat) :
    List (Nat × RDContents V) :=
  if a = 0 then h
  else
    match alookup h a with
    | none => h
    | some c =>
      if c.ref_count - 1 = 0 then aremove h a
      else aset h a { c with ref_count := c.ref_count - 1 }

/-- Handle operations.  `construct r L` runs `regs[r] = ReductionDomain(L)`:
the constructor allocates one fresh contents object and copies `L` into it
(`contents->domain = domain`), the handle ends up owning one reference (the
temporary's incref/decref cancel), and the register's old reference is
released.  `assign r s` runs `regs[r] = regs[s]` through
`IntrusivePtr::operator=` (incref the source before decrefing the target). -/
inductive ROp (V : Type _) where
  | construct (r : Nat) (dom : List V)
  | assign (r s : Nat)
deriving DecidableEq

/-- The register an operation writes. -/
def ROp.target {V : Type _} : ROp V → Nat
  | .construct r _ => r
  | .assign r _ => r

def rstep {V : Type _} (st : RDState V) : ROp V → RDState V
  | .construct r dom =>
    if r < st.regs.length then
      let a := st.next
      let h0 := (a, ⟨1, dom⟩) :: st.heap
      let h1 := rdecref h0 (st.regs.getD r 0)
      { heap := h1, next := a + 1, regs := st.regs.set r a }
    else st
  | .assign r s =>
    if r < st.regs.length then
      let t := st.regs.getD s 0
      let h1 := rincref st.heap t
      let h2 := rdecref h1 (st.regs.getD r 0)
      { st with heap := h2, regs := st.regs.set r t }
    else st

def runRD {V : Type _} (st : RDState V) (ops : List (ROp V)) : RDState V :=
  ops.foldl rstep st

/-- `ReductionDomain::domain()` read through handle `r`: the variable list of
the contents object the handle references. -/
def rdomain {V : Type _} (st : RDState V) (r : Nat) : Option (List V) :=
  (alookup st.heap (st.regs.getD r 0)).map RDContents.domain

/-- Well-formedness: duplicate-free heap addresses in `[1, next)`, every
handle null or live, and every contents object's intrusive count equal to the
number of handles referencing it (positive for live objects). -/
def WfRD {V : Type _} (st : RDState V) : Prop :=
  (akeys st.heap).Nodup ∧
  (∀ a ∈ akeys st.heap, 1 ≤ a ∧ a < st.next) ∧
  (∀ p ∈ st.regs, p = 0 ∨ p ∈ akeys st.heap) ∧
  (∀ e ∈ st.heap, e.2.ref_count = (st.regs.count e.1 : Int)) ∧
  (∀ e ∈ st.heap, 1 ≤ e.2.ref_count) ∧
  1 ≤ st.next

end RD

/-!
## IntrusivePtr / RefCounted (`src/IntrusivePtr.h`)

The reference-counting protocol itself.  Nodes store their own signed
`ref_count` (`RefCounted`) and own their `IntrusivePtr` members ("children"),
which the node's destructor releases; handles live in a register file.
Addresses are allocated in increasing order, so a node's children — adopted
from already-existing handles at construction time — always have strictly
smaller addresses, which is exactly the acyclicity the claims assume.
-/

namespace RC

/-- A live reference-counted node: the addresses held by its `IntrusivePtr`
members (released, in order, by the node's destructor) and the intrusive
count of `RefCounted`. -/
structure Node where
  children : List Nat
  rc : Int
deriving DecidableEq

abbrev Heap := List (Nat × Node)

/-- Termination measure for cascading release: one unit per live node plus
one per member slot. -/
def heapWeight : Heap → Nat
  | [] => 0
  | e :: t => 1 + e.2.children.length + heapWeight t

/-- `IntrusivePtr::incref`: null pointers are skipped; increfing a freed
pointer would be a use-after-free, cannot occur in well-formed states, and is
modelled as a no-op. -/
def increfP (h : Heap) (p : Nat) : Heap :=
  if p = 0 then h
  else
    match alookup h p with
    | none => h
    | some nd => aset h p { nd with rc := nd.rc + 1 }

/-- Cascading release.  `decrefs h ds ps` processes the worklist `ps` of
pending decrements: each non-null pointer is decremented (`ref_count--`), and
when the count reaches exactly 0 the node is deleted (`delete this`) — it is
removed from the heap, its address is logged in `ds`, and its destructor
pushes one pending decrement per `IntrusivePtr` member (depth-first, member
order).  A count that was already at or below zero goes negative and does not
trigger `delete`, exactly as `RefCounted::decref` behaves during re-entrant
teardown; a decrement of an already-freed address would be a use-after-free,
cannot occur in well-formed states, and is modelled as a no-op. -/
def decrefs (h : Heap) (ds : List Nat) (ps : List Nat) : Heap × List Nat :=
  match ps with
  | [] => (h, ds)
  | p :: ps' =>
    if p = 0 then decrefs h ds ps'
    else
      match hl : alookup h p with
      | none => decrefs h ds ps'
      | some nd =>
        if nd.rc - 1 = 0 then
          decrefs (aremove h p) (p :: ds) (nd.children ++ ps')
        else
          decrefs (aset h p { nd with rc := nd.rc - 1 }) ds ps'
termination_by heapWeight h + ps.length
decreasing_by
· simp only [List.length_cons]
  omega
· simp only [List.length_cons]
  omega
· have key : ∀ (h : Heap) (p : Nat) (nd : Node), alookup h p = some nd →
      heapWeight (aremove h p) + (1 + nd.children.length) = heapWeight h := by
    intro h
    induction h with
    | nil =>
      intro p nd hl
      simp [alookup] at hl
    | cons e t ih =>
      intro p nd hl
      by_cases he : e.1 = p
      · simp [alookup, he] at hl
        simp [aremove, he, heapWeight, ← hl]
        omega
      · simp [alookup, he] at hl
        simp only [aremove, if_neg he, heapWeight]
        have := ih p nd hl
        omega
  have hk := key h p nd hl
  simp only [List.length_append, List.length_cons]
  omega
· have key2 : ∀ (h : Heap) (p : Nat) (nd nd' : Node), alookup h p = some nd →
      nd'.children = nd.children → heapWeight (aset h p nd') = heapWeight h := by
    intro h
    induction h with
    | nil =>
      intro p nd nd' hl hc
      simp [alookup] at hl
    | cons e t ih =>
      intro p nd nd' hl hc
      by_cases he : e.1 = p
      · simp [alookup, he] at hl
        simp [aset, he, heapWeight, hc, ← hl]
      · simp [alookup, he] at hl
        simp only [aset, if_neg he, heapWeight]
        have := ih p nd nd' hl hc
        omega
  have hk := key2 h p nd { nd with rc := nd.rc - 1 } hl rfl
  simp only [List.length_cons, hk]
  omega

/-- Machine state: live heap, destruction log (most recent first), next
fresh address, and the register file of `IntrusivePtr` handles (`0` =
null). -/
structure St where
  heap : Heap
  dead : List Nat
  next : Nat
  regs : List Nat
deriving DecidableEq

def getReg (σ : St) (r : Nat) : Nat := σ.regs.getD r 0

/-- Handle operations.  `alloc r cs` builds a fresh node whose `IntrusivePtr`
members adopt the current targets of handles `cs` (each incref'd while the
factory constructs the node) and binds handle `r` to the result (the new node
is adopted — count 1 — before the handle's old reference is released);
`copy r s` is `regs[r] = regs[s]` through `IntrusivePtr::operator=`, which
increfs the source before decrefing the old target; `reset r` destroys
handle `r`'s reference (`~IntrusivePtr`), leaving the slot null. -/
inductive Op where
  | alloc (r : Nat) (cs : List Nat)
  | copy (r s : Nat)
  | reset (r : Nat)
deriving DecidableEq

def step (σ : St) (op : Op) : St :=
  match op with
  | .alloc r cs =>
    if r < σ.regs.length then
      let addrs := cs.map (getReg σ)
      let a := σ.next
      let h1 := addrs.foldl increfP ((a, ⟨addrs, 1⟩) :: σ.heap)
      let rel := decrefs h1 σ.dead [getReg σ r]
      { heap := rel.1, dead := rel.2, next := a + 1, regs := σ.regs.set r a }
    else σ
  | .copy r s =>
    if r < σ.regs.length then
      let t := getReg σ s
      let h1 := increfP σ.heap t
      let rel := decrefs h1 σ.dead [getReg σ r]
      { σ with heap := rel.1, dead := rel.2, regs := σ.regs.set r t }
    else σ
  | .reset r =>
    if r < σ.regs.length then
      let rel := decrefs σ.heap σ.dead [getReg σ r]
      { σ with heap := rel.1, dead := rel.2, regs := σ.regs.set r 0 }
    else σ

/-- `h = m` where `m` is an `IntrusivePtr` member (index `i`) of the object
`h` owns: `operator=` reads `other.ptr` first, increfs it, and only then
decrefs the old target — which destroys the object containing `other` when
`h` held its only reference. -/
def assignFromChild (σ : St) (r i : Nat) : St :=
  if r < σ.regs.length then
    match alookup σ.heap (getReg σ r) with
    | none => σ
    | some nd =>
      let t := nd.children.getD i 0
      let h1 := increfP σ.heap t
      let rel := decrefs h1 σ.dead [getReg σ r]
      { σ with heap := rel.1, dead := rel.2, regs := σ.regs.set r t }
  else σ

def run (σ : St) (prog : List Op) : St := prog.foldl step σ

/-- Destroy the handles in the given register slots, in order. -/
def resetList (σ : St) (l : List Nat) : St :=
  l.foldl (fun s r => step s (.reset r)) σ

/-- Destroy every handle in the register file. -/
def resetAll (σ : St) : St :=
  (List.range σ.regs.length).foldl (fun s r => step s (.reset r)) σ

/-- The empty initial state with `k` null handles. -/
def init (k : Nat) : St :=
  { heap := [], dead := [], next := 1, regs := List.replicate k 0 }

/-- References to address `a` from live nodes' member handles. -/
def childRefs : Heap → Nat → Nat
  | [], _ => 0
  | e :: t, a => e.2.children.count a + childRefs t a

/-- Machine invariant: duplicate-free heap over `[1, next)`; member handles
of live nodes point down (strictly smaller addresses — the acyclic shape) at
live nodes or null; registers are null or live; every live node's count is
exactly the number of registers plus member handles referencing it (and so
positive); the destruction log is duplicate-free, disjoint from the live
heap, and together with it covers every address ever allocated. -/
def Inv (σ : St) : Prop :=
  (akeys σ.heap).Nodup ∧
  (∀ a ∈ akeys σ.heap, 1 ≤ a ∧ a < σ.next) ∧
  (∀ e ∈ σ.heap, ∀ c ∈ e.2.children, c = 0 ∨ c ∈ akeys σ.heap) ∧
  (∀ e ∈ σ.heap, ∀ c ∈ e.2.children, c < e.1) ∧
  (∀ p ∈ σ.regs, p = 0 ∨ p ∈ akeys σ.heap) ∧
  (∀ e ∈ σ.heap,
    e.2.rc = ((σ.regs.count e.1 + childRefs σ.heap e.1 : Nat) : Int)) ∧
  (∀ e ∈ σ.heap, 1 ≤ e.2.rc) ∧
  σ.dead.Nodup ∧
  (∀ a ∈ σ.dead, 1 ≤ a ∧ a < σ.next) ∧
  (∀ a ∈ σ.dead, a ∉ akeys σ.heap) ∧
  (∀ a, a < σ.next → 1 ≤ a → a ∈ akeys σ.heap ∨ a ∈ σ.dead) ∧
  1 ≤ σ.next

/-- A two-node state: node 2 (held only by handle 0) owns node 1 through its
single member handle. -/
def c6State : St :=
  { heap := [(1, ⟨[], 1⟩), (2, ⟨[1], 1⟩)], dead := [], next := 3, regs := [2] }

/-- Invariant of the cascade: `ext` counts the references each address has
from outside the heap (the register file), `ps` is the pending-decrement
worklist; every live count equals outside references plus member references
plus pending decrements. -/
def DInv (ext : Nat → Nat) (h : Heap) (ps : List Nat) : Prop :=
  (akeys h).Nodup ∧
  (∀ a ∈ akeys h, 1 ≤ a) ∧
  (∀ e ∈ h, ∀ c ∈ e.2.children, c = 0 ∨ c ∈ akeys h) ∧
  (∀ e ∈ h, ∀ c ∈ e.2.children, c < e.1) ∧
  (∀ p ∈ ps, p = 0 ∨ p ∈ akeys h) ∧
  (∀ e ∈ h,
    e.2.rc = ((ext e.1 + childRefs h e.1 + ps.count e.1 : Nat) : Int)) ∧
  (∀ e ∈ h, 1 ≤ e.2.rc)

end RC

/-!
## Schedule (`src/Schedule.cpp`)

`ScheduleContents : RefCounted` bundles the schedule fields; `Schedule` is an
`IntrusivePtr` handle to it.  The field element types (`LoopLevel`, `Split`,
`Dim`, `Bound`, `Specialization`) are declared in `Schedule.h`, which is not
under the given sources, and are modelled from the spec; `ForType` and
`DeviceAPI` are the enums of `src/Expr.h`.  Contents objects live in a heap
keyed by address (`0` = null).
-/

namespace Sched

/-- `DeviceAPI` (`src/Expr.h`). -/
inductive DeviceAPI where
  | Parent
  | Host
  | Default_GPU
  | CUDA
  | OpenCL
  | GLSL
  | Renderscript
deriving DecidableEq

/-- `ForType` (`src/Expr.h`). -/
inductive ForType where
  | Serial
  | Parallel
  | Vectorized
  | Unrolled
deriving DecidableEq

/-- Modelled from the spec: `LoopLevel` is declared in `Schedule.h`, which is
not under the given sources; per the spec it is a loop-level descriptor. -/
structure LoopLevel where
  func : String
  var : String
deriving DecidableEq

/-- Modelled from the spec: `Split` (`Schedule.h` is not under the given
sources) is one loop-nest split directive. -/
structure Split where
  old_var : String
  outer : String
  inner : String
deriving DecidableEq

/-- Modelled from the spec: `Dim` (`Schedule.h` is not under the given
sources) is one dimension descriptor — order entry plus loop type and
device-API tag. -/
structure Dim where
  var : String
  for_type : ForType
  device_api : DeviceAPI
deriving DecidableEq

/-- Modelled from the spec: `Bound` (`Schedule.h` is not under the given
sources) is one named bound constraint. -/
structure Bound where
  var : String
deriving DecidableEq

/-- Modelled from the spec: a `Specialization` record pairs a condition
`Expr` with an `IntrusivePtr<ScheduleContents>`; the condition expression is
abstracted to its node address, the schedule pointer to the child contents
object's address. -/
structure Specialization where
  condition : Nat
  schedule : Nat
deriving DecidableEq

/-- `ScheduleContents` (`src/Schedule.cpp`): the `RefCounted` base's
`ref_count` plus every schedule field.  The `reduction_domain` handle is kept
as the address of the referenced contents (whose own count this model does
not track). -/
structure ScheduleContents where
  ref_count : Int
  store_level : LoopLevel
  compute_level : LoopLevel
  splits : List Split
  dims : List Dim
  storage_dims : List String
  bounds : List Bound
  specializations : List Specialization
  reduction_domain : Option Nat
  memoized : Bool
  touched : Bool
  allow_race_conditions : Bool
deriving DecidableEq

structure SState where
  heap : List (Nat × ScheduleContents)
  next : Nat
deriving DecidableEq

/-- `IntrusivePtr<ScheduleContents>::incref`. -/
def incS (h : List (Nat × ScheduleContents)) (a : Nat) :
    List (Nat × ScheduleContents) :=
  if a = 0 then h
  else
    match alookup h a with
    | none => h
    | some c => aset h a { c with ref_count := c.ref_count + 1 }

/-- `IntrusivePtr<ScheduleContents>::decref`: `ref_count--; if (ref_count ==
0) delete this;`.  (Destroying a `ScheduleContents` would in turn release its
specialization children and reduction domain; no state reached in the
theorems below destroys one, so that cascade is not modelled.) -/
def decS (h : List (Nat × ScheduleContents)) (a : Nat) :
    List (Nat × ScheduleContents) :=
  if a = 0 then h
  else
    match alookup h a with
    | none => h
    | some c =>
      if c.ref_count - 1 = 0 then aremove h a
      else aset h a { c with ref_count := c.ref_count - 1 }

/-- `Schedule::add_specialization(Expr condition)` on the contents object at
`parent`:

* `Specialization s; s.condition = condition;`
* `s.schedule = IntrusivePtr<ScheduleContents>(new ScheduleContents);` — the
  fresh contents object ends with count 1 (the temporary handle's incref and
  decref cancel);
* `*(s.schedule.get()) = *(contents.get());` — C++'s implicitly-defined
  copy-assignment copies EVERY member, including the `RefCounted` base's
  `ref_count`, so the child's count 1 is overwritten with the parent's count.
  (Copying and then clearing the specializations vector increfs and then
  decrefs each contents object referenced by the parent's existing records —
  incref first, so no count reaches zero and the net effect on those counts
  is zero; the model applies the net effect.)  Together with the following
  `s.schedule->specializations.clear();` the child is the parent's contents
  with an empty specialization list — and the parent's `ref_count` value;
* `contents->specializations.push_back(s);` — the vector's copy of `s`
  increfs the child and appends the record `{condition, child}`;
* at return the local `s` is destroyed, decrefing the child once. -/
def Schedule.add_specialization (st : SState) (parent : Nat) (cond : Nat) :
    SState :=
  match alookup st.heap parent with
  | none => st
  | some pc =>
    let n := st.next
    let child : ScheduleContents := { pc with specializations := [] }
    let h0 := (n, child) :: st.heap
    let h1 := incS h0 n
    let h2 :=
      match alookup h1 parent with
      | none => h1
      | some pc1 =>
        aset h1 parent
          { pc1 with specializations := pc1.specializations ++ [⟨cond, n⟩] }
    let h3 := decS h2 n
    { heap := h3, next := n + 1 }

/-- Writing through the mutable accessor `Schedule::dims()` of the handle
whose contents live at `a`: the dimension list of that contents object is
replaced (covering any vector mutation done through the returned
reference). -/
def Schedule.dims_set (st : SState) (a : Nat) (d : List Dim) : SState :=
  match alookup st.heap a with
  | none => st
  | some c => { st with heap := aset st.heap a { c with dims := d } }

/-- `Schedule::dims() const` read through the handle whose contents live at
`a`. -/
def dimsOf (st : SState) (a : Nat) : Option (List Dim) :=
  (alookup st.heap a).map ScheduleContents.dims

/-- Number of references to contents object `a` held by specialization
records anywhere in the heap. -/
def specRefs (st : SState) (a : Nat) : Nat :=
  (st.heap.map
    (fun e => (e.2.specializations.map Specialization.schedule).count a)).sum

/-- A parent `ScheduleContents` aliased by two `Schedule` handles (its stored
count is 2), with a nonempty dimension list. -/
def twoOwnerContents : ScheduleContents :=
  { ref_count := 2
    store_level := ⟨"f", "x"⟩
    compute_level := ⟨"f", "x"⟩
    splits := []
    dims := [⟨"x", ForType.Serial, DeviceAPI.Host⟩]
    storage_dims := ["x"]
    bounds := []
    specializations := []
    reduction_domain := none
    memoized := false
    touched := false
    allow_race_conditions := false }

/-- A state whose only contents object is `twoOwnerContents` at address 1. -/
def twoOwnerState : SState := { heap := [(1, twoOwnerContents)], next := 2 }

end Sched

/-!
## Theorems

Generic association-list lemmas, followed by the per-claim results.
-/

theorem akeys_nil {β : Type _} : akeys ([] : List (Nat × β)) = [] := rfl

theorem akeys_cons {β : Type _} (e : Nat × β) (t : List (Nat × β)) :
    akeys (e :: t) = e.1 :: akeys t := rfl

theorem akeys_aset {β : Type _} (h : List (Nat × β)) (a : Nat) (v : β) :
    akeys (aset h a v) = akeys h := by
  induction h with
  | nil => rfl
  | cons e t ih =>
    by_cases he : e.1 = a
    · subst he
      simp [aset, akeys_cons]
    · simp [aset, he, akeys_cons, ih]

theorem alookup_aset_self {β : Type _} {h : List (Nat × β)} {a : Nat} {w : β} (v : β)
    (hl : alookup h a = some w) : alookup (aset h a v) a = some v := by
  induction h with
  | nil => simp [alookup] at hl
  | cons e t ih =>
    by_cases he : e.1 = a
    · simp [aset, he, alookup]
    · simp [alookup, he] at hl
      simp [aset, he, alookup, ih hl]

theorem alookup_aset_ne {β : Type _} (h : List (Nat × β)) {a b : Nat} (v : β)
    (hab : b ≠ a) : alookup (aset h a v) b = alookup h b := by
  induction h with
  | nil => rfl
  | cons e t ih =>
    by_cases he : e.1 = a
    · subst he
      simp [aset, alookup, Ne.symm hab]
    · simp [aset, he, alookup, ih]

theorem aset_lookup_self {β : Type _} {h : List (Nat × β)} {a : Nat} {v : β}
    (hl : alookup h a = some v) : aset h a v = h := by
  induction h with
  | nil => rfl
  | cons e t ih =>
    by_cases he : e.1 = a
    · subst he
      simp [alookup] at hl
      subst hl
      simp [aset]
    · simp [alookup, he] at hl
      simp [aset, he, ih hl]

theorem aset_aset {β : Type _} (h : List (Nat × β)) (a : Nat) (v w : β) :
    aset (aset h a v) a w = aset h a w := by
  induction h with
  | nil => rfl
  | cons e t ih =>
    by_cases he : e.1 = a
    · simp [aset, he]
    · simp [aset, he, ih]

theorem mem_of_mem_aremove {β : Type _} {h : List (Nat × β)} {a : Nat} {e : Nat × β}
    (he : e ∈ aremove h a) : e ∈ h := by
  induction h with
  | nil => simp [aremove] at he
  | cons f t ih =>
    by_cases hf : f.1 = a
    · simp [aremove, hf] at he
      exact List.mem_cons_of_mem _ he
    · simp [aremove, hf] at he
      rcases he with he | he
      · exact he ▸ List.mem_cons_self _ _
      · exact List.mem_cons_of_mem _ (ih he)

theorem akeys_aremove {β : Type _} (h : List (Nat × β)) (a : Nat) :
    akeys (aremove h a) = (akeys h).erase a := by
  induction h with
  | nil => rfl
  | cons e t ih =>
    by_cases he : e.1 = a
    · simp [aremove, he, akeys_cons, List.erase_cons, he]
    · simp [aremove, he, akeys_cons, List.erase_cons, he, ih]

theorem alookup_isSome_iff_mem_akeys {β : Type _} (h : List (Nat × β)) (a : Nat) :
    (alookup h a).isSome ↔ a ∈ akeys h := by
  induction h with
  | nil => simp [alookup, akeys_nil]
  | cons e t ih =>
    by_cases he : e.1 = a
    · simp [alookup, he, akeys_cons]
    · simp [alookup, he, akeys_cons, ih, Ne.symm he]

theorem mem_akeys_of_alookup {β : Type _} {h : List (Nat × β)} {a : Nat} {v : β}
    (hl : alookup h a = some v) : a ∈ akeys h := by
  have := (alookup_isSome_iff_mem_akeys h a).mp
  exact this (by simp [hl])

theorem mem_of_alookup_eq_some {β : Type _} {h : List (Nat × β)} {a : Nat} {v : β}
    (hl : alookup h a = some v) : (a, v) ∈ h := by
  induction h with
  | nil => simp [alookup] at hl
  | cons e t ih =>
    by_cases he : e.1 = a
    · simp [alookup, he] at hl
      have hev : e = (a, v) := by
        cases e
        simp_all
      exact hev ▸ List.mem_cons_self _ _
    · simp [alookup, he] at hl
      exact List.mem_cons_of_mem _ (ih hl)

theorem alookup_eq_some_of_mem {β : Type _} {h : List (Nat × β)} {a : Nat} {v : β}
    (hnd : (akeys h).Nodup) (hm : (a, v) ∈ h) : alookup h a = some v := by
  induction h with
  | nil => simp at hm
  | cons e t ih =>
    rw [akeys_cons] at hnd
    rcases List.mem_cons.mp hm with he | he
    · simp [alookup, ← he]
    · have ha : a ∈ akeys t := List.mem_map.mpr ⟨(a, v), he, rfl⟩
      have hne : e.1 ≠ a := by
        intro hcon
        exact (List.nodup_cons.mp hnd).1 (hcon ▸ ha)
      simp [alookup, hne]
      exact ih (List.nodup_cons.mp hnd).2 he

theorem alookup_aremove_ne {β : Type _} (h : List (Nat × β)) {a b : Nat}
    (hab : b ≠ a) : alookup (aremove h a) b = alookup h b := by
  induction h with
  | nil => rfl
  | cons e t ih =>
    by_cases he : e.1 = a
    · simp [aremove, he, alookup, Ne.symm hab]
    · simp [aremove, he, alookup, ih]

theorem alookup_aremove_self {β : Type _} {h : List (Nat × β)} {a : Nat}
    (hnd : (akeys h).Nodup) : alookup (aremove h a) a = none := by
  have hk : a ∉ akeys (aremove h a) := by
    rw [akeys_aremove]
    exact fun hm => (List.Nodup.not_mem_erase hnd) hm
  rcases hlk : alookup (aremove h a) a with _ | v
  · rfl
  · exact absurd (mem_akeys_of_alookup hlk) hk

theorem akeys_aremove_nodup {β : Type _} {h : List (Nat × β)} (a : Nat)
    (hnd : (akeys h).Nodup) : (akeys (aremove h a)).Nodup := by
  rw [akeys_aremove]
  exact List.Nodup.erase a hnd

theorem mem_aset {β : Type _} {h : List (Nat × β)} {a : Nat} {v : β} {e : Nat × β}
    (he : e ∈ aset h a v) : e = (a, v) ∨ e ∈ h := by
  induction h with
  | nil => simp [aset] at he
  | cons f t ih =>
    by_cases hf : f.1 = a
    · simp [aset, hf] at he
      rcases he with he | he
      · exact Or.inl he
      · exact Or.inr (List.mem_cons_of_mem _ he)
    · simp [aset, hf] at he
      rcases he with he | he
      · exact Or.inr (he ▸ List.mem_cons_self _ _)
      · rcases ih he with h1 | h1
        · exact Or.inl h1
        · exact Or.inr (List.mem_cons_of_mem _ h1)

/-!
### Generic list lemmas for the register-file models
-/

theorem getD_set_ne (l : List Nat) (v : Nat) {i j : Nat} (hij : i ≠ j) :
    (l.set i v).getD j 0 = l.getD j 0 := by
  induction l generalizing i j with
  | nil => simp
  | cons x t ih =>
    cases i with
    | zero =>
      cases j with
      | zero => exact absurd rfl hij
      | succ j' => simp
    | succ i' =>
      cases j with
      | zero => simp
      | succ j' =>
        simp only [List.set_cons_succ, List.getD_cons_succ]
        exact ih (fun hcon => hij (by omega))

theorem getD_set_self (l : List Nat) (v : Nat) {i : Nat} (hi : i < l.length) :
    (l.set i v).getD i 0 = v := by
  induction l generalizing i with
  | nil => simp at hi
  | cons x t ih =>
    cases i with
    | zero => simp
    | succ i' =>
      simp only [List.set_cons_succ, List.getD_cons_succ]
      exact ih (by simp at hi; omega)

theorem mem_set_cases (l : List Nat) (i : Nat) (v : Nat) {p : Nat}
    (hp : p ∈ l.set i v) : p = v ∨ p ∈ l := by
  induction l generalizing i with
  | nil => simp at hp
  | cons x t ih =>
    cases i with
    | zero =>
      simp at hp
      rcases hp with h | h
      · exact Or.inl h
      · exact Or.inr (List.mem_cons_of_mem _ h)
    | succ i' =>
      simp at hp
      rcases hp with h | h
      · exact Or.inr (h ▸ List.mem_cons_self _ _)
      · rcases ih i' h with h1 | h1
        · exact Or.inl h1
        · exact Or.inr (List.mem_cons_of_mem _ h1)

theorem getD_mem (l : List Nat) {i : Nat} (hi : i < l.length) : l.getD i 0 ∈ l := by
  induction l generalizing i with
  | nil => simp at hi
  | cons x t ih =>
    cases i with
    | zero => simp
    | succ i' =>
      simp only [List.getD_cons_succ, List.mem_cons]
      exact Or.inr (ih (by simp at hi; omega))

theorem count_set (l : List Nat) (v : Nat) (i : Nat) (hi : i < l.length) (a : Nat) :
    (l.set i v).count a + (if l.getD i 0 = a then 1 else 0)
      = l.count a + (if v = a then 1 else 0) := by
  induction l generalizing i with
  | nil => simp at hi
  | cons x t ih =>
    cases i with
    | zero =>
      simp [List.count_cons, beq_iff_eq]
      split_ifs <;> omega
    | succ i' =>
      have hi' : i' < t.length := by simp at hi; omega
      have := ih i' hi'
      simp only [List.set_cons_succ, List.getD_cons_succ, List.count_cons,
        beq_iff_eq]
      split_ifs at this ⊢ <;> omega

theorem getD_set_mem (l : List Nat) (v : Nat) {i : Nat} (hi : i < l.length) :
    v ∈ l.set i v := by
  have h1 : (l.set i v).getD i 0 = v := getD_set_self l v hi
  have h2 : (l.set i v).getD i 0 ∈ l.set i v := getD_mem _ (by simp [hi])
  rwa [h1] at h2

/-- First-match update characterisation on duplicate-free heaps. -/
theorem mem_aset_nodup {β : Type _} {h : List (Nat × β)} {a : Nat} {c : β} (v : β)
    (hnd : (akeys h).Nodup) (hl : alookup h a = some c) {e : Nat × β}
    (he : e ∈ aset h a v) : e = (a, v) ∨ (e ∈ h ∧ e.1 ≠ a) := by
  induction h with
  | nil => simp [aset] at he
  | cons f t ih =>
    rw [akeys_cons] at hnd
    by_cases hf : f.1 = a
    · simp [aset, hf] at he
      rcases he with he | he
      · exact Or.inl he
      · refine Or.inr ⟨List.mem_cons_of_mem _ he, ?_⟩
        intro hcon
        have : e.1 ∈ akeys t := List.mem_map.mpr ⟨e, he, rfl⟩
        exact (List.nodup_cons.mp hnd).1 (hf ▸ hcon ▸ this)
    · simp [aset, hf] at he
      rcases he with he | he
      · exact Or.inr ⟨he ▸ List.mem_cons_self _ _, he ▸ hf⟩
      · simp [alookup, hf] at hl
        rcases ih (List.nodup_cons.mp hnd).2 hl he with h1 | h1
        · exact Or.inl h1
        · exact Or.inr ⟨List.mem_cons_of_mem _ h1.1, h1.2⟩

/-!
### C7 — ReductionDomain immutability (`src/Reduction.cpp`)
-/

theorem rincref_alookup {V : Type _} (h : List (Nat × RD.RDContents V)) (t a : Nat)
    (h0 : alookup h 0 = none) :
    alookup (RD.rincref h t) a =
      if t = a then
        (alookup h a).map (fun c => { c with ref_count := c.ref_count + 1 })
      else alookup h a := by
  rw [RD.rincref]
  by_cases ht : t = 0
  · subst ht
    simp only [if_pos rfl]
    by_cases ha : (0 : Nat) = a
    · simp [← ha, h0]
    · simp [ha]
  · simp only [if_neg ht]
    cases hlt : alookup h t with
    | none =>
      by_cases ha : t = a
      · subst ha
        simp [hlt]
      · simp [ha]
    | some c =>
      by_cases ha : t = a
      · subst ha
        simp [alookup_aset_self _ hlt, hlt]
      · simp [ha, alookup_aset_ne _ _ (fun hc : a = t => ha hc.symm)]

theorem rincref_akeys {V : Type _} (h : List (Nat × RD.RDContents V)) (t : Nat) :
    akeys (RD.rincref h t) = akeys h := by
  rw [RD.rincref]
  by_cases ht : t = 0
  · simp [ht]
  · simp only [if_neg ht]
    cases hlt : alookup h t with
    | none => rfl
    | some c => exact akeys_aset _ _ _

theorem rdecref_alookup_ne {V : Type _} (h : List (Nat × RD.RDContents V))
    {b a : Nat} (hba : a ≠ b) :
    alookup (RD.rdecref h b) a = alookup h a := by
  rw [RD.rdecref]
  by_cases hb : b = 0
  · simp [hb]
  · simp only [if_neg hb]
    cases hlb : alookup h b with
    | none => rfl
    | some c =>
      by_cases hz : c.ref_count - 1 = 0
      · simp [hz, alookup_aremove_ne _ hba]
      · simp [hz, alookup_aset_ne _ _ hba]

/-- Releasing the single pending reference `old`: if every live object's
count equals its references from the (already updated) register file plus one
pending reference through `old`, then after `decref(old)` counts match the
register file exactly, no register dangles, and every surviving object keeps
its variable list unchanged. -/
theorem rdecref_wf {V : Type _} (h : List (Nat × RD.RDContents V)) (regs' : List Nat)
    (old : Nat)
    (hnd : (akeys h).Nodup)
    (hb : ∀ a ∈ akeys h, 1 ≤ a)
    (hold : old = 0 ∨ old ∈ akeys h)
    (hlive : ∀ p ∈ regs', p = 0 ∨ p ∈ akeys h)
    (hcount : ∀ e ∈ h, e.2.ref_count =
      (regs'.count e.1 : Int) + (if e.1 = old then 1 else 0))
    (hpos : ∀ e ∈ h, 1 ≤ e.2.ref_count) :
    (akeys (RD.rdecref h old)).Nodup ∧
    (∀ a ∈ akeys (RD.rdecref h old), a ∈ akeys h) ∧
    (∀ e ∈ RD.rdecref h old, e.2.ref_count = (regs'.count e.1 : Int)) ∧
    (∀ e ∈ RD.rdecref h old, 1 ≤ e.2.ref_count) ∧
    (∀ p ∈ regs', p = 0 ∨ p ∈ akeys (RD.rdecref h old)) ∧
    (∀ a c2, alookup (RD.rdecref h old) a = some c2 →
      ∃ c, alookup h a = some c ∧ c2.domain = c.domain) := by
  by_cases hold0 : old = 0
  · have hid : RD.rdecref h old = h := by rw [RD.rdecref]; simp [hold0]
    rw [hid]
    refine ⟨hnd, fun a ha => ha, ?_, hpos, hlive, ?_⟩
    · intro e he
      have h1 : 1 ≤ e.1 := (hb _ (List.mem_map.mpr ⟨e, he, rfl⟩))
      have := hcount e he
      have hne : e.1 ≠ old := by omega
      simpa [hne] using this
    · intro a c2 hl
      exact ⟨c2, hl, rfl⟩
  · rcases hold with h00 | hmem
    · exact absurd h00 hold0
    · have hsome : (alookup h old).isSome :=
        (alookup_isSome_iff_mem_akeys h old).mpr hmem
      rcases hlk : alookup h old with _ | c
      · rw [hlk] at hsome; simp at hsome
      · have hcm : (old, c) ∈ h := mem_of_alookup_eq_some hlk
        have hrc : c.ref_count = (regs'.count old : Int) + 1 := by
          have := hcount _ hcm
          simpa using this
        by_cases hz : c.ref_count - 1 = 0
        · -- the count hits zero: the contents object is destroyed
          have hcnt0 : regs'.count old = 0 := by omega
          have hnotmem : old ∉ regs' := List.count_eq_zero.mp hcnt0
          have hrm : RD.rdecref h old = aremove h old := by
            rw [RD.rdecref]
            simp [hold0, hlk, hz]
          rw [hrm]
          have hkeys : akeys (aremove h old) = (akeys h).erase old :=
            akeys_aremove h old
          refine ⟨?_, ?_, ?_, ?_, ?_, ?_⟩
          · rw [hkeys]; exact hnd.erase old
          · intro a ha
            rw [hkeys] at ha
            exact List.mem_of_mem_erase ha
          · intro e he
            have heh : e ∈ h := mem_of_mem_aremove he
            have hne : e.1 ≠ old := by
              have : e.1 ∈ akeys (aremove h old) := List.mem_map.mpr ⟨e, he, rfl⟩
              rw [hkeys] at this
              exact (hnd.mem_erase_iff.mp this).1
            have := hcount e heh
            simpa [hne] using this
          · intro e he
            exact hpos e (mem_of_mem_aremove he)
          · intro p hp
            rcases hlive p hp with h0 | hk
            · exact Or.inl h0
            · refine Or.inr ?_
              rw [hkeys]
              refine hnd.mem_erase_iff.mpr ⟨?_, hk⟩
              intro hcon
              exact hnotmem (hcon ▸ hp)
          · intro a c2 hl
            by_cases ha : a = old
            · rw [ha, alookup_aremove_self hnd] at hl
              simp at hl
            · rw [alookup_aremove_ne _ ha] at hl
              exact ⟨c2, hl, rfl⟩
        · -- the count stays positive: update in place
          have hst : RD.rdecref h old =
              aset h old { c with ref_count := c.ref_count - 1 } := by
            rw [RD.rdecref]
            simp [hold0, hlk, hz]
          rw [hst]
          have hkeys : akeys (aset h old { c with ref_count := c.ref_count - 1 })
              = akeys h := akeys_aset _ _ _
          refine ⟨?_, ?_, ?_, ?_, ?_, ?_⟩
          · rw [hkeys]; exact hnd
          · intro a ha
            rw [hkeys] at ha
            exact ha
          · intro e he
            rcases mem_aset_nodup _ hnd hlk he with he1 | ⟨heh, hne⟩
            · subst he1
              show c.ref_count - 1 = (regs'.count old : Int)
              omega
            · have := hcount e heh
              simpa [hne] using this
          · intro e he
            rcases mem_aset_nodup _ hnd hlk he with he1 | ⟨heh, hne⟩
            · subst he1
              show (1 : Int) ≤ c.ref_count - 1
              omega
            · exact hpos e heh
          · intro p hp
            rcases hlive p hp with h0 | hk
            · exact Or.inl h0
            · rw [hkeys]
              exact Or.inr hk
          · intro a c2 hl
            by_cases ha : a = old
            · subst ha
              rw [alookup_aset_self _ hlk] at hl
              injection hl with hl2
              exact ⟨c, hlk, by rw [← hl2]⟩
            · rw [alookup_aset_ne _ _ ha] at hl
              exact ⟨c2, hl, rfl⟩

theorem alookup_zero_none {β : Type _} {h : List (Nat × β)}
    (hb : ∀ a ∈ akeys h, 1 ≤ a) : alookup h 0 = none := by
  rcases hlk : alookup h 0 with _ | c
  · rfl
  · have := hb _ (mem_akeys_of_alookup hlk)
    omega

theorem rincref_domain_map {V : Type _} (h : List (Nat × RD.RDContents V))
    (t a : Nat) (h0 : alookup h 0 = none) :
    (alookup (RD.rincref h t) a).map RD.RDContents.domain
      = (alookup h a).map RD.RDContents.domain := by
  rw [rincref_alookup h t a h0]
  by_cases ht : t = a
  · rw [if_pos ht]
    cases alookup h a <;> simp
  · rw [if_neg ht]

theorem rincref_pos {V : Type _} {h : List (Nat × RD.RDContents V)} (t : Nat)
    (hnd : (akeys h).Nodup) (hp : ∀ e ∈ h, 1 ≤ e.2.ref_count) :
    ∀ e ∈ RD.rincref h t, 1 ≤ e.2.ref_count := by
  intro e he
  rw [RD.rincref] at he
  by_cases ht : t = 0
  · rw [if_pos ht] at he
    exact hp e he
  · rw [if_neg ht] at he
    rcases hlt : alookup h t with _ | c
    · rw [hlt] at he
      exact hp e he
    · rw [hlt] at he
      rcases mem_aset_nodup _ hnd hlt he with he1 | ⟨heh, _⟩
      · subst he1
        have h2 : (1 : Int) ≤ c.ref_count := hp (t, c) (mem_of_alookup_eq_some hlt)
        show (1 : Int) ≤ c.ref_count + 1
        omega
      · exact hp e heh

/-- One step of the handle machine preserves well-formedness, the register
file length, the address bound, and the variable list of every contents
object that stays referenced across the step. -/
theorem rstep_wf {V : Type _} (st : RD.RDState V) (op : RD.ROp V)
    (hwf : RD.WfRD st) :
    RD.WfRD (RD.rstep st op) ∧
    (RD.rstep st op).regs.length = st.regs.length ∧
    st.next ≤ (RD.rstep st op).next ∧
    (∀ a, a ∈ st.regs → a ∈ (RD.rstep st op).regs → a ≠ 0 →
      (alookup (RD.rstep st op).heap a).map RD.RDContents.domain
        = (alookup st.heap a).map RD.RDContents.domain) := by
  obtain ⟨hnd, hb, hlv, hcnt, hpos, hnx⟩ := hwf
  have h0none : alookup st.heap 0 = none :=
    alookup_zero_none (fun a ha => (hb a ha).1)
  cases op with
  | assign r s =>
    by_cases hr : r < st.regs.length
    · have hred : RD.rstep st (RD.ROp.assign r s) =
          { st with
            heap := RD.rdecref (RD.rincref st.heap (st.regs.getD s 0))
              (st.regs.getD r 0),
            regs := st.regs.set r (st.regs.getD s 0) } := by
        simp [RD.rstep, hr]
      rw [hred]
      have hk1 : akeys (RD.rincref st.heap (st.regs.getD s 0)) = akeys st.heap :=
        rincref_akeys _ _
      have hnd1 : (akeys (RD.rincref st.heap (st.regs.getD s 0))).Nodup :=
        hk1 ▸ hnd
      have hb1 : ∀ a ∈ akeys (RD.rincref st.heap (st.regs.getD s 0)), 1 ≤ a := by
        rw [hk1]
        exact fun a ha => (hb a ha).1
      have htlive : st.regs.getD s 0 = 0 ∨ st.regs.getD s 0 ∈ akeys st.heap := by
        by_cases hs : s < st.regs.length
        · exact hlv _ (getD_mem _ hs)
        · exact Or.inl (List.getD_eq_default _ _ (by omega))
      have hold1 : st.regs.getD r 0 = 0 ∨
          st.regs.getD r 0 ∈ akeys (RD.rincref st.heap (st.regs.getD s 0)) := by
        rw [hk1]
        exact hlv _ (getD_mem _ hr)
      have hlive1 : ∀ p ∈ st.regs.set r (st.regs.getD s 0),
          p = 0 ∨ p ∈ akeys (RD.rincref st.heap (st.regs.getD s 0)) := by
        intro p hp
        rw [hk1]
        rcases mem_set_cases _ _ _ hp with h | h
        · exact h ▸ htlive
        · exact hlv _ h
      have hcount1 : ∀ e ∈ RD.rincref st.heap (st.regs.getD s 0),
          e.2.ref_count = ((st.regs.set r (st.regs.getD s 0)).count e.1 : Int) +
            (if e.1 = st.regs.getD r 0 then 1 else 0) := by
        intro e he
        have hlk1 : alookup (RD.rincref st.heap (st.regs.getD s 0)) e.1 = some e.2 :=
          alookup_eq_some_of_mem hnd1 he
        rw [rincref_alookup _ _ _ h0none] at hlk1
        have hcs := count_set st.regs (st.regs.getD s 0) r hr e.1
        by_cases ht : st.regs.getD s 0 = e.1
        · rw [if_pos ht] at hlk1
          rcases hlk0 : alookup st.heap e.1 with _ | c
          · rw [hlk0] at hlk1
            simp at hlk1
          · rw [hlk0] at hlk1
            simp at hlk1
            have hc0 : c.ref_count = (st.regs.count e.1 : Int) :=
              hcnt _ (mem_of_alookup_eq_some hlk0)
            have he2 : e.2.ref_count = c.ref_count + 1 := by
              rw [← hlk1]
            split_ifs at hcs ⊢ <;> omega
        · rw [if_neg ht] at hlk1
          have hc0 : e.2.ref_count = (st.regs.count e.1 : Int) :=
            hcnt _ (mem_of_alookup_eq_some hlk1)
          split_ifs at hcs ⊢ <;> omega
      have hpos1 := rincref_pos (st.regs.getD s 0) hnd hpos
      obtain ⟨c1, c2, c3, c4, c5, c6⟩ :=
        rdecref_wf (RD.rincref st.heap (st.regs.getD s 0))
          (st.regs.set r (st.regs.getD s 0)) (st.regs.getD r 0)
          hnd1 hb1 hold1 hlive1 hcount1 hpos1
      refine ⟨⟨c1, ?_, c5, c3, c4, hnx⟩, by simp, le_refl _, ?_⟩
      · intro a ha
        exact hb a (hk1 ▸ c2 a ha)
      · intro a ha0 ha1 hane
        rcases c5 a ha1 with h | h
        · exact absurd h hane
        · have hsome := (alookup_isSome_iff_mem_akeys _ a).mpr h
          rcases hl2 : alookup
              (RD.rdecref (RD.rincref st.heap (st.regs.getD s 0))
                (st.regs.getD r 0)) a with _ | cc
          · rw [hl2] at hsome
            simp at hsome
          · obtain ⟨cm, hcm, hdm⟩ := c6 a cc hl2
            have hch : (alookup (RD.rincref st.heap (st.regs.getD s 0)) a).map
                RD.RDContents.domain = (alookup st.heap a).map RD.RDContents.domain :=
              rincref_domain_map _ _ _ h0none
            rw [hcm] at hch
            simp at hch
            simp [hdm, hch]
    · have hred : RD.rstep st (RD.ROp.assign r s) = st := by
        simp [RD.rstep, hr]
      rw [hred]
      exact ⟨⟨hnd, hb, hlv, hcnt, hpos, hnx⟩, rfl, le_refl _, fun a _ _ _ => rfl⟩
  | construct r dom =>
    by_cases hr : r < st.regs.length
    · have hred : RD.rstep st (RD.ROp.construct r dom) =
          { heap := RD.rdecref ((st.next, ⟨1, dom⟩) :: st.heap)
              (st.regs.getD r 0),
            next := st.next + 1,
            regs := st.regs.set r st.next } := by
        simp [RD.rstep, hr]
      rw [hred]
      have hfresh : st.next ∉ akeys st.heap := by
        intro hcon
        have := (hb _ hcon).2
        omega
      have hk1 : akeys ((st.next, (⟨1, dom⟩ : RD.RDContents V)) :: st.heap)
          = st.next :: akeys st.heap := rfl
      have hnd1 : (akeys ((st.next, (⟨1, dom⟩ : RD.RDContents V)) :: st.heap)).Nodup := by
        rw [hk1]
        exact List.nodup_cons.mpr ⟨hfresh, hnd⟩
      have hb1 : ∀ a ∈ akeys ((st.next, (⟨1, dom⟩ : RD.RDContents V)) :: st.heap),
          1 ≤ a := by
        rw [hk1]
        intro a ha
        rcases List.mem_cons.mp ha with h | h
        · omega
        · exact (hb a h).1
      have hregne : ∀ p ∈ st.regs, p ≠ st.next := by
        intro p hp hcon
        rcases hlv p hp with h | h
        · omega
        · exact hfresh (hcon ▸ h)
      have holdreg : st.regs.getD r 0 ∈ st.regs := getD_mem _ hr
      have hold1 : st.regs.getD r 0 = 0 ∨ st.regs.getD r 0 ∈
          akeys ((st.next, (⟨1, dom⟩ : RD.RDContents V)) :: st.heap) := by
        rw [hk1]
        rcases hlv _ holdreg with h | h
        · exact Or.inl h
        · exact Or.inr (List.mem_cons_of_mem _ h)
      have hlive1 : ∀ p ∈ st.regs.set r st.next,
          p = 0 ∨ p ∈ akeys ((st.next, (⟨1, dom⟩ : RD.RDContents V)) :: st.heap) := by
        intro p hp
        rw [hk1]
        rcases mem_set_cases _ _ _ hp with h | h
        · exact Or.inr (h ▸ List.mem_cons_self _ _)
        · rcases hlv _ h with h2 | h2
          · exact Or.inl h2
          · exact Or.inr (List.mem_cons_of_mem _ h2)
      have hcntnext : st.regs.count st.next = 0 :=
        List.count_eq_zero.mpr (fun hcon => hregne _ hcon rfl)
      have hcount1 : ∀ e ∈ (st.next, (⟨1, dom⟩ : RD.RDContents V)) :: st.heap,
          e.2.ref_count = ((st.regs.set r st.next).count e.1 : Int) +
            (if e.1 = st.regs.getD r 0 then 1 else 0) := by
        intro e he
        rcases List.mem_cons.mp he with h | h
        · subst h
          have hcs := count_set st.regs st.next r hr st.next
          have hne : st.regs.getD r 0 ≠ st.next := hregne _ holdreg
          show (1 : Int) = ((st.regs.set r st.next).count st.next : Int) +
            (if st.next = st.regs.getD r 0 then 1 else 0)
          rw [if_neg (fun hcon : st.next = st.regs.getD r 0 => hne hcon.symm)]
          split_ifs at hcs <;> omega
        · have hcs := count_set st.regs st.next r hr e.1
          have hc0 : e.2.ref_count = (st.regs.count e.1 : Int) := hcnt _ h
          have hne : e.1 ≠ st.next := by
            intro hcon
            exact hfresh (hcon ▸ List.mem_map.mpr ⟨e, h, rfl⟩)
          split_ifs at hcs ⊢ <;> omega
      have hpos1 : ∀ e ∈ (st.next, (⟨1, dom⟩ : RD.RDContents V)) :: st.heap,
          1 ≤ e.2.ref_count := by
        intro e he
        rcases List.mem_cons.mp he with h | h
        · subst h
          show (1 : Int) ≤ 1
          omega
        · exact hpos _ h
      obtain ⟨c1, c2, c3, c4, c5, c6⟩ :=
        rdecref_wf ((st.next, (⟨1, dom⟩ : RD.RDContents V)) :: st.heap)
          (st.regs.set r st.next) (st.regs.getD r 0)
          hnd1 hb1 hold1 hlive1 hcount1 hpos1
      refine ⟨⟨c1, ?_, c5, c3, c4, by show 1 ≤ st.next + 1; omega⟩, by simp,
        by show st.next ≤ st.next + 1; omega, ?_⟩
      · intro a ha
        have hmem := c2 a ha
        rw [hk1] at hmem
        show 1 ≤ a ∧ a < st.next + 1
        rcases List.mem_cons.mp hmem with h | h
        · omega
        · have hba := hb a h
          omega
      · intro a ha0 ha1 hane
        rcases c5 a ha1 with h | h
        · exact absurd h hane
        · have hsome := (alookup_isSome_iff_mem_akeys _ a).mpr h
          rcases hl2 : alookup
              (RD.rdecref ((st.next, (⟨1, dom⟩ : RD.RDContents V)) :: st.heap)
                (st.regs.getD r 0)) a with _ | cc
          · rw [hl2] at hsome
            simp at hsome
          · obtain ⟨cm, hcm, hdm⟩ := c6 a cc hl2
            have hane2 : st.next ≠ a := fun hcon => hregne a ha0 hcon.symm
            rw [show alookup ((st.next, (⟨1, dom⟩ : RD.RDContents V)) :: st.heap) a
                = alookup st.heap a from by simp [alookup, hane2]] at hcm
            simp [hdm, hcm]
    · have hred : RD.rstep st (RD.ROp.construct r dom) = st := by
        simp [RD.rstep, hr]
      rw [hred]
      exact ⟨⟨hnd, hb, hlv, hcnt, hpos, hnx⟩, rfl, le_refl _, fun a _ _ _ => rfl⟩

/-- A step whose target register is not `r` changes neither which contents
object register `r` references nor the variable list it observes. -/
theorem rstep_track {V : Type _} (st : RD.RDState V) (op : RD.ROp V) (r : Nat)
    (hwf : RD.WfRD st) (hr : r < st.regs.length) (hne : RD.ROp.target op ≠ r) :
    RD.rdomain (RD.rstep st op) r = RD.rdomain st r := by
  have hstep := rstep_wf st op hwf
  have hgd : (RD.rstep st op).regs.getD r 0 = st.regs.getD r 0 := by
    cases op with
    | assign r' s =>
      by_cases hr' : r' < st.regs.length
      · simp only [RD.rstep, if_pos hr']
        exact getD_set_ne _ _ (fun hcon => hne hcon)
      · simp [RD.rstep, hr']
    | construct r' dom =>
      by_cases hr' : r' < st.regs.length
      · simp only [RD.rstep, if_pos hr']
        exact getD_set_ne _ _ (fun hcon => hne hcon)
      · simp [RD.rstep, hr']
  rw [RD.rdomain, RD.rdomain, hgd]
  by_cases ha : st.regs.getD r 0 = 0
  · rw [ha]
    have hz1 : alookup (RD.rstep st op).heap 0 = none :=
      alookup_zero_none (fun a hak => (hstep.1.2.1 a hak).1)
    have hz2 : alookup st.heap 0 = none := by
      obtain ⟨_, hb, _⟩ := hwf
      exact alookup_zero_none (fun a hak => (hb a hak).1)
    rw [hz1, hz2]
  · have hmem0 : st.regs.getD r 0 ∈ st.regs := getD_mem _ hr
    have hmem1 : st.regs.getD r 0 ∈ (RD.rstep st op).regs := by
      have hlen : r < (RD.rstep st op).regs.length := by
        rw [hstep.2.1]
        exact hr
      have := getD_mem (RD.rstep st op).regs hlen
      rwa [hgd] at this
    exact hstep.2.2.2 _ hmem0 hmem1 ha

/-- Running any sequence of operations that never targets register `r`
preserves well-formedness and what `r` observes. -/
theorem runRD_track {V : Type _} (ops : List (RD.ROp V)) (st : RD.RDState V)
    (r : Nat) (hwf : RD.WfRD st) (hr : r < st.regs.length)
    (hops : ∀ op ∈ ops, RD.ROp.target op ≠ r) :
    RD.rdomain (RD.runRD st ops) r = RD.rdomain st r := by
  induction ops generalizing st with
  | nil => rfl
  | cons op rest ih =>
    have hstep := rstep_wf st op hwf
    have ht := rstep_track st op r hwf hr (hops op (List.mem_cons_self _ _))
    have hrun : RD.runRD st (op :: rest) = RD.runRD (RD.rstep st op) rest := rfl
    rw [hrun, ih (RD.rstep st op) hstep.1 (by rw [hstep.2.1]; exact hr)
      (fun o ho => hops o (List.mem_cons_of_mem _ ho)), ht]

/-- C7: constructing a `ReductionDomain` from variable list `L` makes
`domain()` return exactly `L` through the constructing handle, and no further
operation that does not reassign that handle — constructing other domains
from other lists, or reassigning other handles (including copying from this
one) — ever changes what `domain()` returns on it: nothing mutates an
existing contents object's variable list through a shared handle. -/
theorem reduction_domain_immutable {V : Type} (st : RD.RDState V) (r : Nat)
    (L : List V) (hwf : RD.WfRD st) (hr : r < st.regs.length) :
    RD.rdomain (RD.rstep st (RD.ROp.construct r L)) r = some L ∧
    (∀ ops : List (RD.ROp V), (∀ op ∈ ops, RD.ROp.target op ≠ r) →
      RD.rdomain (RD.runRD (RD.rstep st (RD.ROp.construct r L)) ops) r = some L) := by
  obtain ⟨hnd, hb, hlv, hcnt, hpos, hnx⟩ := hwf
  have hfirst : RD.rdomain (RD.rstep st (RD.ROp.construct r L)) r = some L := by
    have hred : RD.rstep st (RD.ROp.construct r L) =
        { heap := RD.rdecref ((st.next, ⟨1, L⟩) :: st.heap) (st.regs.getD r 0),
          next := st.next + 1,
          regs := st.regs.set r st.next } := by
      simp [RD.rstep, hr]
    rw [hred, RD.rdomain]
    have hgd : (st.regs.set r st.next).getD r 0 = st.next := getD_set_self _ _ hr
    have hone : st.next ≠ st.regs.getD r 0 := by
      rcases hlv _ (getD_mem _ hr) with h | h
      · omega
      · have := (hb _ h).2
        omega
    simp only [hgd]
    rw [rdecref_alookup_ne _ hone]
    simp [alookup]
  refine ⟨hfirst, fun ops hops => ?_⟩
  have hwf1 := (rstep_wf st (RD.ROp.construct r L)
    ⟨hnd, hb, hlv, hcnt, hpos, hnx⟩).1
  have hlen1 := (rstep_wf st (RD.ROp.construct r L)
    ⟨hnd, hb, hlv, hcnt, hpos, hnx⟩).2.1
  rw [runRD_track ops _ r hwf1 (by rw [hlen1]; exact hr) hops, hfirst]

/-- C7 witness: from an empty two-handle state, handle `0` is bound to a
domain built from `[7]`; afterwards copying it into handle `1` and then
rebinding handle `1` to a fresh domain `[9]` leaves handle `0` observing
`[7]`. -/
theorem reduction_domain_immutable_witness :
    RD.rdomain (RD.runRD
      (RD.rstep (⟨[], 1, [0, 0]⟩ : RD.RDState Nat) (RD.ROp.construct 0 [7]))
      [RD.ROp.assign 1 0, RD.ROp.construct 1 [9]]) 0 = some [7] :=
  (reduction_domain_immutable (⟨[], 1, [0, 0]⟩ : RD.RDState Nat) 0 [7]
    (by
      refine ⟨by decide, by decide, ?_, by decide, by decide, by decide⟩
      intro p hp
      simp at hp
      simp [hp])
    (by decide)).2
    [RD.ROp.assign 1 0, RD.ROp.construct 1 [9]]
    (by
      intro op hop
      simp at hop
      rcases hop with h | h <;> simp [h, RD.ROp.target])

/-!
### The reference-counting cascade (`src/IntrusivePtr.h`)

Unfolding equations for `RC.decrefs`, followed by the main invariant
preservation lemma for the release cascade.
-/

theorem decrefs_nil (h : RC.Heap) (ds : List Nat) : RC.decrefs h ds [] = (h, ds) := by
  rw [RC.decrefs]

theorem decrefs_zero (h : RC.Heap) (ds ps' : List Nat) :
    RC.decrefs h ds (0 :: ps') = RC.decrefs h ds ps' := by
  rw [RC.decrefs]
  simp

theorem decrefs_none (h : RC.Heap) (ds : List Nat) {p : Nat} (ps' : List Nat)
    (hp : p ≠ 0) (hl : alookup h p = none) :
    RC.decrefs h ds (p :: ps') = RC.decrefs h ds ps' := by
  rw [RC.decrefs]
  rw [if_neg hp]
  split
  · rfl
  · rename_i nd heq
    rw [hl] at heq
    simp at heq

theorem decrefs_remove (h : RC.Heap) (ds : List Nat) {p : Nat} (ps' : List Nat)
    {nd : RC.Node} (hp : p ≠ 0) (hl : alookup h p = some nd)
    (hz : nd.rc - 1 = 0) :
    RC.decrefs h ds (p :: ps') =
      RC.decrefs (aremove h p) (p :: ds) (nd.children ++ ps') := by
  rw [RC.decrefs]
  rw [if_neg hp]
  split
  · rename_i heq
    rw [hl] at heq
    simp at heq
  · rename_i nd' heq
    rw [hl] at heq
    injection heq with heq2
    subst heq2
    rw [if_pos hz]

theorem decrefs_update (h : RC.Heap) (ds : List Nat) {p : Nat} (ps' : List Nat)
    {nd : RC.Node} (hp : p ≠ 0) (hl : alookup h p = some nd)
    (hz : ¬ nd.rc - 1 = 0) :
    RC.decrefs h ds (p :: ps') =
      RC.decrefs (aset h p { nd with rc := nd.rc - 1 }) ds ps' := by
  rw [RC.decrefs]
  rw [if_neg hp]
  split
  · rename_i heq
    rw [hl] at heq
    simp at heq
  · rename_i nd' heq
    rw [hl] at heq
    injection heq with heq2
    subst heq2
    rw [if_neg hz]

theorem childRefs_aremove {h : RC.Heap} {p : Nat} {nd : RC.Node}
    (hl : alookup h p = some nd) (a : Nat) :
    RC.childRefs h a = nd.children.count a + RC.childRefs (aremove h p) a := by
  induction h with
  | nil => simp [alookup] at hl
  | cons e t ih =>
    by_cases he : e.1 = p
    · simp [alookup, he] at hl
      simp [aremove, he, RC.childRefs, ← hl]
    · simp [alookup, he] at hl
      simp only [aremove, if_neg he, RC.childRefs]
      rw [ih hl]
      omega

theorem childRefs_aset {h : RC.Heap} {p : Nat} {nd nd' : RC.Node}
    (hl : alookup h p = some nd) (hc : nd'.children = nd.children) (a : Nat) :
    RC.childRefs (aset h p nd') a = RC.childRefs h a := by
  induction h with
  | nil => rfl
  | cons e t ih =>
    by_cases he : e.1 = p
    · simp [alookup, he] at hl
      simp [aset, he, RC.childRefs, hc, ← hl]
    · simp [alookup, he] at hl
      simp only [aset, if_neg he, RC.childRefs]
      rw [ih hl]

theorem childRefs_pos {h : RC.Heap} {e : Nat × RC.Node} {c : Nat}
    (he : e ∈ h) (hc : c ∈ e.2.children) : 1 ≤ RC.childRefs h c := by
  induction h with
  | nil => simp at he
  | cons f t ih =>
    rcases List.mem_cons.mp he with h1 | h1
    · have hcount : 0 < e.2.children.count c := List.count_pos_iff.mpr hc
      rw [h1] at hcount
      simp only [RC.childRefs]
      omega
    · have := ih h1
      simp only [RC.childRefs]
      omega

/-- Invariant preservation for the full release cascade: starting from a
heap whose counts balance external references plus member references plus
the pending worklist, the cascade ends with balanced counts and no pending
decrements; the destruction log stays duplicate-free and disjoint from the
live heap; addresses only move from the live heap to the log; and every
address with an external reference survives. -/
theorem decrefs_spec (ext : Nat → Nat) (h : RC.Heap) (ds ps : List Nat) :
    RC.DInv ext h ps → ds.Nodup → (∀ a ∈ ds, a ∉ akeys h) →
    (RC.DInv ext (RC.decrefs h ds ps).1 [] ∧
     (RC.decrefs h ds ps).2.Nodup ∧
     (∀ a ∈ (RC.decrefs h ds ps).2, a ∉ akeys (RC.decrefs h ds ps).1) ∧
     (∀ a ∈ akeys (RC.decrefs h ds ps).1, a ∈ akeys h) ∧
     (∀ a ∈ (RC.decrefs h ds ps).2, a ∈ ds ∨ a ∈ akeys h) ∧
     (∀ a ∈ akeys h,
       a ∈ akeys (RC.decrefs h ds ps).1 ∨ a ∈ (RC.decrefs h ds ps).2) ∧
     (∀ a ∈ ds, a ∈ (RC.decrefs h ds ps).2) ∧
     (∀ a ∈ akeys h, 1 ≤ ext a → a ∈ akeys (RC.decrefs h ds ps).1)) := by
  induction h, ds, ps using RC.decrefs.induct with
  | case1 h ds =>
    intro hinv hnd hdisj
    rw [decrefs_nil]
    exact ⟨hinv, hnd, hdisj, fun a ha => ha, fun a ha => Or.inl ha,
      fun a ha => Or.inl ha, fun a ha => ha, fun a ha _ => ha⟩
  | case2 h ds ps' ih =>
    intro hinv hnd hdisj
    rw [decrefs_zero]
    obtain ⟨d1, d2, d3, d4, d5, d6, d7⟩ := hinv
    refine ih ⟨d1, d2, d3, d4, ?_, ?_, d7⟩ hnd hdisj
    · intro p hp
      exact d5 p (List.mem_cons_of_mem _ hp)
    · intro e he
      have hkey : 1 ≤ e.1 := d2 _ (List.mem_map.mpr ⟨e, he, rfl⟩)
      have hc : (0 :: ps').count e.1 = ps'.count e.1 := by
        rw [List.count_cons]
        have hne : ¬ ((0 : Nat) = e.1) := by omega
        simp [hne]
      rw [d6 e he, hc]
  | case3 h ds p ps' hp hl ih =>
    intro hinv hnd hdisj
    obtain ⟨d1, d2, d3, d4, d5, d6, d7⟩ := hinv
    rcases d5 p (List.mem_cons_self _ _) with h0 | hk
    · exact absurd h0 hp
    · have hs := (alookup_isSome_iff_mem_akeys h p).mpr hk
      rw [hl] at hs
      simp at hs
  | case4 h ds p ps' hp nd hl hz ih =>
    intro hinv hnd hdisj
    rw [decrefs_remove h ds ps' hp hl hz]
    obtain ⟨d1, d2, d3, d4, d5, d6, d7⟩ := hinv
    have hcm : (p, nd) ∈ h := mem_of_alookup_eq_some hl
    have hpk : p ∈ akeys h := mem_akeys_of_alookup hl
    have hrc : nd.rc =
        ((ext p + RC.childRefs h p + (p :: ps').count p : Nat) : Int) := d6 _ hcm
    have hcp : (p :: ps').count p = ps'.count p + 1 := by
      simp [List.count_cons]
    rw [hcp] at hrc
    have hext0 : ext p = 0 := by omega
    have hch0 : RC.childRefs h p = 0 := by omega
    have hps0 : ps'.count p = 0 := by omega
    have hpnotps : p ∉ ps' := List.count_eq_zero.mp hps0
    have hkeys : akeys (aremove h p) = (akeys h).erase p := akeys_aremove h p
    have hsub : ∀ a ∈ akeys (aremove h p), a ∈ akeys h := by
      intro a ha
      rw [hkeys] at ha
      exact List.mem_of_mem_erase ha
    have hmemer : ∀ a, a ∈ akeys (aremove h p) ↔ (a ≠ p ∧ a ∈ akeys h) := by
      intro a
      rw [hkeys]
      exact d1.mem_erase_iff
    have hcrdec : ∀ a,
        RC.childRefs h a = nd.children.count a + RC.childRefs (aremove h p) a :=
      childRefs_aremove hl
    have hnorefp : ∀ e ∈ aremove h p, p ∉ e.2.children := by
      intro e he hcon
      have := childRefs_pos (mem_of_mem_aremove he) hcon
      omega
    have hinv' : RC.DInv ext (aremove h p) (nd.children ++ ps') := by
      refine ⟨?_, ?_, ?_, ?_, ?_, ?_, ?_⟩
      · rw [hkeys]
        exact d1.erase p
      · intro a ha
        exact d2 a (hsub a ha)
      · intro e he c hc
        rcases d3 e (mem_of_mem_aremove he) c hc with h0 | hk2
        · exact Or.inl h0
        · right
          rw [hmemer]
          refine ⟨?_, hk2⟩
          intro hcon
          exact hnorefp e he (hcon ▸ hc)
      · intro e he c hc
        exact d4 e (mem_of_mem_aremove he) c hc
      · intro q hq
        rcases List.mem_append.mp hq with hq | hq
        · have hcn : ∀ c ∈ nd.children, c = 0 ∨ c ∈ akeys h := d3 _ hcm
          rcases hcn q hq with h0 | hk2
          · exact Or.inl h0
          · right
            rw [hmemer]
            refine ⟨?_, hk2⟩
            intro hcon
            subst hcon
            have := childRefs_pos hcm hq
            omega
        · rcases d5 q (List.mem_cons_of_mem _ hq) with h0 | hk2
          · exact Or.inl h0
          · right
            rw [hmemer]
            refine ⟨?_, hk2⟩
            intro hcon
            subst hcon
            exact hpnotps hq
      · intro e he
        have heh := mem_of_mem_aremove he
        have hne : e.1 ≠ p :=
          ((hmemer e.1).mp (List.mem_map.mpr ⟨e, he, rfl⟩)).1
        have hcnt1 : (p :: ps').count e.1 = ps'.count e.1 := by
          rw [List.count_cons]
          simp [Ne.symm hne]
        have hcr := hcrdec e.1
        have hcnt2 : (nd.children ++ ps').count e.1
            = nd.children.count e.1 + ps'.count e.1 := List.count_append _ _ _
        rw [d6 e heh]
        omega
      · intro e he
        exact d7 e (mem_of_mem_aremove he)
    have hnd' : (p :: ds).Nodup :=
      List.nodup_cons.mpr ⟨fun hcon => hdisj p hcon hpk, hnd⟩
    have hdisj' : ∀ a ∈ p :: ds, a ∉ akeys (aremove h p) := by
      intro a ha hcon
      rcases List.mem_cons.mp ha with h0 | h0
      · subst h0
        exact ((hmemer a).mp hcon).1 rfl
      · exact hdisj a h0 (hsub a hcon)
    obtain ⟨c1, c2, c3, c4, c5, c6, c7, c8⟩ := ih hinv' hnd' hdisj'
    refine ⟨c1, c2, c3, ?_, ?_, ?_, ?_, ?_⟩
    · intro a ha
      exact hsub a (c4 a ha)
    · intro a ha
      rcases c5 a ha with h0 | h0
      · rcases List.mem_cons.mp h0 with h1 | h1
        · exact Or.inr (h1 ▸ hpk)
        · exact Or.inl h1
      · exact Or.inr (hsub a h0)
    · intro a ha
      by_cases hap : a = p
      · subst hap
        exact Or.inr (c7 a (List.mem_cons_self _ _))
      · rcases c6 a ((hmemer a).mpr ⟨hap, ha⟩) with h0 | h0
        · exact Or.inl h0
        · exact Or.inr h0
    · intro a ha
      exact c7 a (List.mem_cons_of_mem _ ha)
    · intro a ha hext
      by_cases hap : a = p
      · subst hap
        omega
      · exact c8 a ((hmemer a).mpr ⟨hap, ha⟩) hext
  | case5 h ds p ps' hp nd hl hz ih =>
    intro hinv hnd hdisj
    rw [decrefs_update h ds ps' hp hl hz]
    obtain ⟨d1, d2, d3, d4, d5, d6, d7⟩ := hinv
    have hcm : (p, nd) ∈ h := mem_of_alookup_eq_some hl
    have hpk : p ∈ akeys h := mem_akeys_of_alookup hl
    have hrc : nd.rc =
        ((ext p + RC.childRefs h p + (p :: ps').count p : Nat) : Int) := d6 _ hcm
    have hcp : (p :: ps').count p = ps'.count p + 1 := by
      simp [List.count_cons]
    rw [hcp] at hrc
    have hkeys : akeys (aset h p { nd with rc := nd.rc - 1 }) = akeys h :=
      akeys_aset _ _ _
    have hcr : ∀ a,
        RC.childRefs (aset h p { nd with rc := nd.rc - 1 }) a
          = RC.childRefs h a := childRefs_aset hl rfl
    have hinv' : RC.DInv ext (aset h p { nd with rc := nd.rc - 1 }) ps' := by
      refine ⟨?_, ?_, ?_, ?_, ?_, ?_, ?_⟩
      · rw [hkeys]
        exact d1
      · intro a ha
        rw [hkeys] at ha
        exact d2 a ha
      · intro e he c hc
        rw [hkeys]
        rcases mem_aset_nodup _ d1 hl he with he1 | ⟨heh, _⟩
        · subst he1
          exact d3 _ hcm c hc
        · exact d3 e heh c hc
      · intro e he c hc
        rcases mem_aset_nodup _ d1 hl he with he1 | ⟨heh, _⟩
        · subst he1
          exact d4 _ hcm c hc
        · exact d4 e heh c hc
      · intro q hq
        rw [hkeys]
        exact d5 q (List.mem_cons_of_mem _ hq)
      · intro e he
        rcases mem_aset_nodup _ d1 hl he with he1 | ⟨heh, hne⟩
        · subst he1
          show nd.rc - 1 =
            ((ext p + RC.childRefs (aset h p { nd with rc := nd.rc - 1 }) p
              + ps'.count p : Nat) : Int)
          rw [hcr p]
          omega
        · have hd6 := d6 e heh
          have hcnt1 : (p :: ps').count e.1 = ps'.count e.1 := by
            rw [List.count_cons]
            simp [Ne.symm hne]
          rw [hcr e.1, hd6, hcnt1]
      · intro e he
        rcases mem_aset_nodup _ d1 hl he with he1 | ⟨heh, _⟩
        · subst he1
          show (1 : Int) ≤ nd.rc - 1
          omega
        · exact d7 e heh
    have hdisj' : ∀ a ∈ ds, a ∉ akeys (aset h p { nd with rc := nd.rc - 1 }) := by
      intro a ha
      rw [hkeys]
      exact hdisj a ha
    obtain ⟨c1, c2, c3, c4, c5, c6, c7, c8⟩ := ih hinv' hnd hdisj'
    refine ⟨c1, c2, c3, ?_, ?_, ?_, c7, ?_⟩
    · intro a ha
      have := c4 a ha
      rw [hkeys] at this
      exact this
    · intro a ha
      rcases c5 a ha with h0 | h0
      · exact Or.inl h0
      · right
        rw [hkeys] at h0
        exact h0
    · intro a ha
      rcases c6 a (by rw [hkeys]; exact ha) with h0 | h0
      · exact Or.inl h0
      · exact Or.inr h0
    · intro a ha hext
      exact c8 a (by rw [hkeys]; exact ha) hext

theorem increfP_akeys (h : RC.Heap) (t : Nat) : akeys (RC.increfP h t) = akeys h := by
  rw [RC.increfP]
  by_cases ht : t = 0
  · simp [ht]
  · simp only [if_neg ht]
    cases hlt : alookup h t with
    | none => rfl
    | some nd => exact akeys_aset _ _ _

theorem increfP_alookup (h : RC.Heap) (t a : Nat) (h0 : alookup h 0 = none) :
    alookup (RC.increfP h t) a =
      if t = a then (alookup h a).map (fun nd => { nd with rc := nd.rc + 1 })
      else alookup h a := by
  rw [RC.increfP]
  by_cases ht : t = 0
  · subst ht
    simp only [if_pos rfl]
    by_cases ha : (0 : Nat) = a
    · simp [← ha, h0]
    · simp [ha]
  · simp only [if_neg ht]
    cases hlt : alookup h t with
    | none =>
      by_cases ha : t = a
      · subst ha
        simp [hlt]
      · simp [ha]
    | some nd =>
      by_cases ha : t = a
      · subst ha
        simp [alookup_aset_self _ hlt, hlt]
      · simp [ha, alookup_aset_ne _ _ (fun hc : a = t => ha hc.symm)]

theorem childRefs_increfP (h : RC.Heap) (t a : Nat) :
    RC.childRefs (RC.increfP h t) a = RC.childRefs h a := by
  rw [RC.increfP]
  by_cases ht : t = 0
  · simp [ht]
  · simp only [if_neg ht]
    cases hlt : alookup h t with
    | none => rfl
    | some nd =>
      exact @childRefs_aset h t nd { nd with rc := nd.rc + 1 } hlt rfl a

theorem akeys_foldl_increfP (addrs : List Nat) (h : RC.Heap) :
    akeys (addrs.foldl RC.increfP h) = akeys h := by
  induction addrs generalizing h with
  | nil => rfl
  | cons x rest ih =>
    rw [List.foldl_cons, ih, increfP_akeys]

theorem alookup_foldl_increfP (addrs : List Nat) (h : RC.Heap) (q : Nat)
    (hb : ∀ a ∈ akeys h, 1 ≤ a) :
    alookup (addrs.foldl RC.increfP h) q =
      (alookup h q).map
        (fun nd => { nd with rc := nd.rc + (addrs.count q : Int) }) := by
  induction addrs generalizing h with
  | nil =>
    cases hlq : alookup h q with
    | none => simp [hlq]
    | some nd => simp [hlq]
  | cons x rest ih =>
    have h0 : alookup h 0 = none := alookup_zero_none hb
    have hb1 : ∀ a ∈ akeys (RC.increfP h x), 1 ≤ a := by
      rw [increfP_akeys]
      exact hb
    rw [List.foldl_cons, ih (RC.increfP h x) hb1,
      increfP_alookup h x q h0]
    by_cases hx : x = q
    · subst hx
      rw [if_pos rfl]
      have hcx : (x :: rest).count x = rest.count x + 1 := by
        simp [List.count_cons]
      simp only [hcx]
      cases hlq : alookup h x with
      | none => rfl
      | some nd =>
        have harith : nd.rc + 1 + (rest.count x : Int)
            = nd.rc + ((rest.count x + 1 : Nat) : Int) := by
          push_cast
          ring
        show some (RC.Node.mk nd.children (nd.rc + 1 + (rest.count x : Int)))
            = some (RC.Node.mk nd.children (nd.rc + ((rest.count x + 1 : Nat) : Int)))
        rw [harith]
    · rw [if_neg hx]
      have hcx : (x :: rest).count q = rest.count q := by
        rw [List.count_cons]
        simp [hx]
      simp only [hcx]

theorem childRefs_foldl_increfP (addrs : List Nat) (h : RC.Heap) (a : Nat) :
    RC.childRefs (addrs.foldl RC.increfP h) a = RC.childRefs h a := by
  induction addrs generalizing h with
  | nil => rfl
  | cons x rest ih =>
    rw [List.foldl_cons, ih, childRefs_increfP]

theorem childRefs_pos_exists {h : RC.Heap} {c : Nat}
    (hpos : 1 ≤ RC.childRefs h c) : ∃ e ∈ h, c ∈ e.2.children := by
  induction h with
  | nil => simp [RC.childRefs] at hpos
  | cons f t ih =>
    simp only [RC.childRefs] at hpos
    by_cases hf : 1 ≤ f.2.children.count c
    · exact ⟨f, List.mem_cons_self _ _, List.count_pos_iff.mp (by omega)⟩
    · have : 1 ≤ RC.childRefs t c := by omega
      obtain ⟨e, he, hc⟩ := ih this
      exact ⟨e, List.mem_cons_of_mem _ he, hc⟩

theorem count_singleton_eq (a b : Nat) :
    ([a] : List Nat).count b = if a = b then 1 else 0 := by
  by_cases h : a = b <;> simp [List.count_cons, h]

/-- Reassembling the machine invariant after a release: if the pre-release
heap `h1` satisfies the cascade invariant with the updated register file as
external references and the single pending decrement `old`, the state after
the cascade satisfies the machine invariant. -/
theorem rebuild_inv (σ : RC.St) (h1 : RC.Heap) (regs' : List Nat)
    (old next' : Nat)
    (hkb : ∀ a ∈ akeys h1, 1 ≤ a ∧ a < next')
    (hnext1 : 1 ≤ next')
    (hregs' : ∀ p ∈ regs', p = 0 ∨ p ∈ akeys h1)
    (hD : RC.DInv (fun a => regs'.count a) h1 [old])
    (hdisj1 : ∀ a ∈ σ.dead, a ∉ akeys h1)
    (hpart1 : ∀ a, a < next' → 1 ≤ a → a ∈ akeys h1 ∨ a ∈ σ.dead)
    (hdead_b : ∀ a ∈ σ.dead, 1 ≤ a ∧ a < next')
    (hdnd : σ.dead.Nodup) :
    RC.Inv { heap := (RC.decrefs h1 σ.dead [old]).1,
             dead := (RC.decrefs h1 σ.dead [old]).2,
             next := next', regs := regs' } := by
  obtain ⟨c1, c2, c3, c4, c5, c6, c7, c8⟩ :=
    decrefs_spec (fun a => regs'.count a) h1 σ.dead [old] hD hdnd hdisj1
  obtain ⟨e1, e2, e3, e4, e5, e6, e7⟩ := c1
  refine ⟨e1, ?_, e3, e4, ?_, ?_, e7, c2, ?_, c3, ?_, hnext1⟩
  · intro a ha
    exact hkb a (c4 a ha)
  · intro p hp
    by_cases hp0 : p = 0
    · exact Or.inl hp0
    · right
      rcases hregs' p hp with h0 | hk
      · exact absurd h0 hp0
      · refine c8 p hk ?_
        have : 0 < regs'.count p := List.count_pos_iff.mpr hp
        omega
  · intro e he
    have hc2 : e.2.rc = ((regs'.count e.1 +
        RC.childRefs (RC.decrefs h1 σ.dead [old]).1 e.1 +
        ([] : List Nat).count e.1 : Nat) : Int) := e6 e he
    have hc0 : (([] : List Nat)).count e.1 = 0 := rfl
    show e.2.rc = ((regs'.count e.1 +
        RC.childRefs (RC.decrefs h1 σ.dead [old]).1 e.1 : Nat) : Int)
    omega
  · intro a ha
    rcases c5 a ha with h0 | h0
    · exact hdead_b a h0
    · exact hkb a h0
  · intro a ha h1a
    rcases hpart1 a ha h1a with h0 | h0
    · rcases c6 a h0 with h2 | h2
      · exact Or.inl h2
      · exact Or.inr h2
    · exact Or.inr (c7 a h0)

/-- One step of the handle machine preserves the invariant; the register
file length is unchanged and addresses are never reused. -/
theorem step_inv (σ : RC.St) (op : RC.Op) (hinv : RC.Inv σ) :
    RC.Inv (RC.step σ op) ∧ (RC.step σ op).regs.length = σ.regs.length ∧
    σ.next ≤ (RC.step σ op).next := by
  obtain ⟨i1, i2, i3, i4, i5, i6, i7, i8, i9, i10, i11, i12⟩ := hinv
  have h0none : alookup σ.heap 0 = none :=
    alookup_zero_none (fun a ha => (i2 a ha).1)
  cases op with
  | copy r s =>
    by_cases hr : r < σ.regs.length
    · have hred : RC.step σ (RC.Op.copy r s) =
          { heap := (RC.decrefs (RC.increfP σ.heap (RC.getReg σ s)) σ.dead
              [RC.getReg σ r]).1,
            dead := (RC.decrefs (RC.increfP σ.heap (RC.getReg σ s)) σ.dead
              [RC.getReg σ r]).2,
            next := σ.next,
            regs := σ.regs.set r (RC.getReg σ s) } := by
        simp [RC.step, hr]
      rw [hred]
      have htlive : RC.getReg σ s = 0 ∨ RC.getReg σ s ∈ akeys σ.heap := by
        by_cases hs : s < σ.regs.length
        · exact i5 _ (getD_mem _ hs)
        · exact Or.inl (List.getD_eq_default _ _ (by omega))
      have holdlive : RC.getReg σ r = 0 ∨ RC.getReg σ r ∈ akeys σ.heap :=
        i5 _ (getD_mem _ hr)
      have hk1 : akeys (RC.increfP σ.heap (RC.getReg σ s)) = akeys σ.heap :=
        increfP_akeys _ _
      have hnd1 : (akeys (RC.increfP σ.heap (RC.getReg σ s))).Nodup := by
        rw [hk1]
        exact i1
      have hD : RC.DInv (fun a => (σ.regs.set r (RC.getReg σ s)).count a)
          (RC.increfP σ.heap (RC.getReg σ s)) [RC.getReg σ r] := by
        refine ⟨hnd1, ?_, ?_, ?_, ?_, ?_, ?_⟩
        · intro a ha
          rw [hk1] at ha
          exact (i2 a ha).1
        · intro e he c hc
          have hlk1 := alookup_eq_some_of_mem hnd1 he
          rw [increfP_alookup _ _ _ h0none] at hlk1
          rw [hk1]
          by_cases ht : RC.getReg σ s = e.1
          · rw [if_pos ht] at hlk1
            rcases hlk0 : alookup σ.heap e.1 with _ | c0
            · rw [hlk0] at hlk1
              simp at hlk1
            · rw [hlk0] at hlk1
              simp at hlk1
              have hch : e.2.children = c0.children := by rw [← hlk1]
              exact i3 _ (mem_of_alookup_eq_some hlk0) c (hch ▸ hc)
          · rw [if_neg ht] at hlk1
            exact i3 _ (mem_of_alookup_eq_some hlk1) c hc
        · intro e he c hc
          have hlk1 := alookup_eq_some_of_mem hnd1 he
          rw [increfP_alookup _ _ _ h0none] at hlk1
          by_cases ht : RC.getReg σ s = e.1
          · rw [if_pos ht] at hlk1
            rcases hlk0 : alookup σ.heap e.1 with _ | c0
            · rw [hlk0] at hlk1
              simp at hlk1
            · rw [hlk0] at hlk1
              simp at hlk1
              have hch : e.2.children = c0.children := by rw [← hlk1]
              exact i4 _ (mem_of_alookup_eq_some hlk0) c (hch ▸ hc)
          · rw [if_neg ht] at hlk1
            exact i4 _ (mem_of_alookup_eq_some hlk1) c hc
        · intro q hq
          rw [List.mem_singleton] at hq
          subst hq
          rw [hk1]
          exact holdlive
        · intro e he
          have hlk1 := alookup_eq_some_of_mem hnd1 he
          rw [increfP_alookup _ _ _ h0none] at hlk1
          have hcs : (σ.regs.set r (RC.getReg σ s)).count e.1 +
              (if RC.getReg σ r = e.1 then 1 else 0) =
              σ.regs.count e.1 + (if RC.getReg σ s = e.1 then 1 else 0) :=
            count_set σ.regs (RC.getReg σ s) r hr e.1
          have hcrr := childRefs_increfP σ.heap (RC.getReg σ s) e.1
          have hsing := count_singleton_eq (RC.getReg σ r) e.1
          show e.2.rc = (((σ.regs.set r (RC.getReg σ s)).count e.1 +
              RC.childRefs (RC.increfP σ.heap (RC.getReg σ s)) e.1 +
              ([RC.getReg σ r] : List Nat).count e.1 : Nat) : Int)
          rw [hcrr, hsing]
          by_cases ht : RC.getReg σ s = e.1
          · rw [if_pos ht] at hlk1
            rcases hlk0 : alookup σ.heap e.1 with _ | c0
            · rw [hlk0] at hlk1
              simp at hlk1
            · rw [hlk0] at hlk1
              simp at hlk1
              have hrc0 : c0.rc =
                  ((σ.regs.count e.1 + RC.childRefs σ.heap e.1 : Nat) : Int) :=
                i6 _ (mem_of_alookup_eq_some hlk0)
              have hrc1 : e.2.rc = c0.rc + 1 := by rw [← hlk1]
              split_ifs at hcs ⊢ <;> omega
          · rw [if_neg ht] at hlk1
            have hrc0 : e.2.rc =
                ((σ.regs.count e.1 + RC.childRefs σ.heap e.1 : Nat) : Int) :=
              i6 _ (mem_of_alookup_eq_some hlk1)
            split_ifs at hcs ⊢ <;> omega
        · intro e he
          have hlk1 := alookup_eq_some_of_mem hnd1 he
          rw [increfP_alookup _ _ _ h0none] at hlk1
          by_cases ht : RC.getReg σ s = e.1
          · rw [if_pos ht] at hlk1
            rcases hlk0 : alookup σ.heap e.1 with _ | c0
            · rw [hlk0] at hlk1
              simp at hlk1
            · rw [hlk0] at hlk1
              simp at hlk1
              have h7 : (1 : Int) ≤ c0.rc := i7 _ (mem_of_alookup_eq_some hlk0)
              have hrc1 : e.2.rc = c0.rc + 1 := by rw [← hlk1]
              omega
          · rw [if_neg ht] at hlk1
            exact i7 _ (mem_of_alookup_eq_some hlk1)
      have hregs' : ∀ p ∈ σ.regs.set r (RC.getReg σ s),
          p = 0 ∨ p ∈ akeys (RC.increfP σ.heap (RC.getReg σ s)) := by
        intro p hp
        rw [hk1]
        rcases mem_set_cases _ _ _ hp with h0 | h0
        · exact h0 ▸ htlive
        · exact i5 _ h0
      have hdisj1 : ∀ a ∈ σ.dead,
          a ∉ akeys (RC.increfP σ.heap (RC.getReg σ s)) := by
        intro a ha
        rw [hk1]
        exact i10 a ha
      have hkb : ∀ a ∈ akeys (RC.increfP σ.heap (RC.getReg σ s)),
          1 ≤ a ∧ a < σ.next := by
        intro a ha
        rw [hk1] at ha
        exact i2 a ha
      have hpart1 : ∀ a, a < σ.next → 1 ≤ a →
          a ∈ akeys (RC.increfP σ.heap (RC.getReg σ s)) ∨ a ∈ σ.dead := by
        intro a ha h1a
        rw [hk1]
        exact i11 a ha h1a
      exact ⟨rebuild_inv σ _ _ _ _ hkb i12 hregs' hD hdisj1 hpart1 i9 i8,
        by simp, le_refl _⟩
    · have hred : RC.step σ (RC.Op.copy r s) = σ := by
        simp [RC.step, hr]
      rw [hred]
      exact ⟨⟨i1, i2, i3, i4, i5, i6, i7, i8, i9, i10, i11, i12⟩, rfl, le_refl _⟩
  | reset r =>
    by_cases hr : r < σ.regs.length
    · have hred : RC.step σ (RC.Op.reset r) =
          { heap := (RC.decrefs σ.heap σ.dead [RC.getReg σ r]).1,
            dead := (RC.decrefs σ.heap σ.dead [RC.getReg σ r]).2,
            next := σ.next,
            regs := σ.regs.set r 0 } := by
        simp [RC.step, hr]
      rw [hred]
      have holdlive : RC.getReg σ r = 0 ∨ RC.getReg σ r ∈ akeys σ.heap :=
        i5 _ (getD_mem _ hr)
      have hD : RC.DInv (fun a => (σ.regs.set r 0).count a) σ.heap
          [RC.getReg σ r] := by
        refine ⟨i1, fun a ha => (i2 a ha).1, i3, i4, ?_, ?_, i7⟩
        · intro q hq
          rw [List.mem_singleton] at hq
          subst hq
          exact holdlive
        · intro e he
          have hcs : (σ.regs.set r 0).count e.1 +
              (if RC.getReg σ r = e.1 then 1 else 0) =
              σ.regs.count e.1 + (if 0 = e.1 then 1 else 0) :=
            count_set σ.regs 0 r hr e.1
          have hsing := count_singleton_eq (RC.getReg σ r) e.1
          have hrc0 : e.2.rc =
              ((σ.regs.count e.1 + RC.childRefs σ.heap e.1 : Nat) : Int) :=
            i6 _ he
          have hkey : 1 ≤ e.1 := (i2 _ (List.mem_map.mpr ⟨e, he, rfl⟩)).1
          show e.2.rc = (((σ.regs.set r 0).count e.1 +
              RC.childRefs σ.heap e.1 +
              ([RC.getReg σ r] : List Nat).count e.1 : Nat) : Int)
          rw [hsing]
          split_ifs at hcs ⊢ <;> omega
      have hregs' : ∀ p ∈ σ.regs.set r 0, p = 0 ∨ p ∈ akeys σ.heap := by
        intro p hp
        rcases mem_set_cases _ _ _ hp with h0 | h0
        · exact Or.inl h0
        · exact i5 _ h0
      exact ⟨rebuild_inv σ _ _ _ _ i2 i12 hregs' hD i10 i11 i9 i8,
        by simp, le_refl _⟩
    · have hred : RC.step σ (RC.Op.reset r) = σ := by
        simp [RC.step, hr]
      rw [hred]
      exact ⟨⟨i1, i2, i3, i4, i5, i6, i7, i8, i9, i10, i11, i12⟩, rfl, le_refl _⟩
  | alloc r cs =>
    by_cases hr : r < σ.regs.length
    · have hred : RC.step σ (RC.Op.alloc r cs) =
          { heap := (RC.decrefs
              ((cs.map (RC.getReg σ)).foldl RC.increfP
                ((σ.next, ⟨cs.map (RC.getReg σ), 1⟩) :: σ.heap)) σ.dead
              [RC.getReg σ r]).1,
            dead := (RC.decrefs
              ((cs.map (RC.getReg σ)).foldl RC.increfP
                ((σ.next, ⟨cs.map (RC.getReg σ), 1⟩) :: σ.heap)) σ.dead
              [RC.getReg σ r]).2,
            next := σ.next + 1,
            regs := σ.regs.set r σ.next } := by
        simp [RC.step, hr]
      rw [hred]
      have haddrs : ∀ x ∈ cs.map (RC.getReg σ), x = 0 ∨ x ∈ akeys σ.heap := by
        intro x hx
        obtain ⟨c, hc, hxc⟩ := List.mem_map.mp hx
        subst hxc
        by_cases hcl : c < σ.regs.length
        · exact i5 _ (getD_mem _ hcl)
        · exact Or.inl (List.getD_eq_default _ _ (by omega))
      have hfresh : σ.next ∉ akeys σ.heap := by
        intro hcon
        have := (i2 _ hcon).2
        omega
      have haddrne : ∀ x ∈ cs.map (RC.getReg σ), x ≠ σ.next := by
        intro x hx hcon
        rcases haddrs x hx with h0 | h0
        · omega
        · exact hfresh (hcon ▸ h0)
      have hregne : ∀ p ∈ σ.regs, p ≠ σ.next := by
        intro p hp hcon
        rcases i5 p hp with h0 | h0
        · omega
        · exact hfresh (hcon ▸ h0)
      have hcons_b : ∀ a ∈ akeys ((σ.next,
          (⟨cs.map (RC.getReg σ), 1⟩ : RC.Node)) :: σ.heap), 1 ≤ a := by
        intro a ha
        rcases List.mem_cons.mp ha with h0 | h0
        · omega
        · exact (i2 a h0).1
      have hk1 : akeys ((cs.map (RC.getReg σ)).foldl RC.increfP
          ((σ.next, (⟨cs.map (RC.getReg σ), 1⟩ : RC.Node)) :: σ.heap))
          = σ.next :: akeys σ.heap := by
        rw [akeys_foldl_increfP]
        rfl
      have hnd1 : (akeys ((cs.map (RC.getReg σ)).foldl RC.increfP
          ((σ.next, (⟨cs.map (RC.getReg σ), 1⟩ : RC.Node)) :: σ.heap))).Nodup := by
        rw [hk1]
        exact List.nodup_cons.mpr ⟨hfresh, i1⟩
      have hlkfold : ∀ q, alookup ((cs.map (RC.getReg σ)).foldl RC.increfP
          ((σ.next, (⟨cs.map (RC.getReg σ), 1⟩ : RC.Node)) :: σ.heap)) q =
          (alookup ((σ.next, (⟨cs.map (RC.getReg σ), 1⟩ : RC.Node)) :: σ.heap)
            q).map (fun nd =>
              { nd with rc := nd.rc + ((cs.map (RC.getReg σ)).count q : Int) }) :=
        fun q => alookup_foldl_increfP _ _ q hcons_b
      have hcrf : ∀ q, RC.childRefs ((cs.map (RC.getReg σ)).foldl RC.increfP
          ((σ.next, (⟨cs.map (RC.getReg σ), 1⟩ : RC.Node)) :: σ.heap)) q
          = (cs.map (RC.getReg σ)).count q + RC.childRefs σ.heap q := by
        intro q
        rw [childRefs_foldl_increfP]
        rfl
      have hcr0 : RC.childRefs σ.heap σ.next = 0 := by
        by_contra hcon
        have : 1 ≤ RC.childRefs σ.heap σ.next := by omega
        obtain ⟨e, he, hc⟩ := childRefs_pos_exists this
        have := i4 e he _ hc
        have := (i2 _ (List.mem_map.mpr ⟨e, he, rfl⟩)).2
        omega
      have hcnt0 : σ.regs.count σ.next = 0 :=
        List.count_eq_zero.mpr (fun hcon => hregne _ hcon rfl)
      have haddrcnt0 : (cs.map (RC.getReg σ)).count σ.next = 0 :=
        List.count_eq_zero.mpr (fun hcon => haddrne _ hcon rfl)
      have holdlive : RC.getReg σ r = 0 ∨ RC.getReg σ r ∈ akeys σ.heap :=
        i5 _ (getD_mem _ hr)
      have holdne : RC.getReg σ r ≠ σ.next := hregne _ (getD_mem _ hr)
      have hD : RC.DInv (fun a => (σ.regs.set r σ.next).count a)
          ((cs.map (RC.getReg σ)).foldl RC.increfP
            ((σ.next, (⟨cs.map (RC.getReg σ), 1⟩ : RC.Node)) :: σ.heap))
          [RC.getReg σ r] := by
        refine ⟨hnd1, ?_, ?_, ?_, ?_, ?_, ?_⟩
        · intro a ha
          rw [hk1] at ha
          rcases List.mem_cons.mp ha with h0 | h0
          · omega
          · exact (i2 a h0).1
        · intro e he c hc
          have hlk1 := alookup_eq_some_of_mem hnd1 he
          rw [hlkfold] at hlk1
          rw [hk1]
          by_cases hq : σ.next = e.1
          · rw [show alookup ((σ.next, (⟨cs.map (RC.getReg σ), 1⟩ : RC.Node))
                :: σ.heap) e.1 = some ⟨cs.map (RC.getReg σ), 1⟩ from by
                  simp [alookup, hq]] at hlk1
            simp at hlk1
            have hch : e.2.children = cs.map (RC.getReg σ) := by rw [← hlk1]
            rw [hch] at hc
            rcases haddrs c hc with h0 | h0
            · exact Or.inl h0
            · exact Or.inr (List.mem_cons_of_mem _ h0)
          · rw [show alookup ((σ.next, (⟨cs.map (RC.getReg σ), 1⟩ : RC.Node))
                :: σ.heap) e.1 = alookup σ.heap e.1 from by
                  simp [alookup, hq]] at hlk1
            rcases hlk0 : alookup σ.heap e.1 with _ | c0
            · rw [hlk0] at hlk1
              simp at hlk1
            · rw [hlk0] at hlk1
              simp at hlk1
              have hch : e.2.children = c0.children := by rw [← hlk1]
              rw [hch] at hc
              rcases i3 _ (mem_of_alookup_eq_some hlk0) c hc with h0 | h0
              · exact Or.inl h0
              · exact Or.inr (List.mem_cons_of_mem _ h0)
        · intro e he c hc
          have hlk1 := alookup_eq_some_of_mem hnd1 he
          rw [hlkfold] at hlk1
          by_cases hq : σ.next = e.1
          · rw [show alookup ((σ.next, (⟨cs.map (RC.getReg σ), 1⟩ : RC.Node))
                :: σ.heap) e.1 = some ⟨cs.map (RC.getReg σ), 1⟩ from by
                  simp [alookup, hq]] at hlk1
            simp at hlk1
            have hch : e.2.children = cs.map (RC.getReg σ) := by rw [← hlk1]
            rw [hch] at hc
            rcases haddrs c hc with h0 | h0
            · omega
            · have := (i2 _ h0).2
              omega
          · rw [show alookup ((σ.next, (⟨cs.map (RC.getReg σ), 1⟩ : RC.Node))
                :: σ.heap) e.1 = alookup σ.heap e.1 from by
                  simp [alookup, hq]] at hlk1
            rcases hlk0 : alookup σ.heap e.1 with _ | c0
            · rw [hlk0] at hlk1
              simp at hlk1
            · rw [hlk0] at hlk1
              simp at hlk1
              have hch : e.2.children = c0.children := by rw [← hlk1]
              rw [hch] at hc
              exact i4 _ (mem_of_alookup_eq_some hlk0) c hc
        · intro q hq
          rw [List.mem_singleton] at hq
          subst hq
          rw [hk1]
          rcases holdlive with h0 | h0
          · exact Or.inl h0
          · exact Or.inr (List.mem_cons_of_mem _ h0)
        · intro e he
          have hlk1 := alookup_eq_some_of_mem hnd1 he
          rw [hlkfold] at hlk1
          have hcs : (σ.regs.set r σ.next).count e.1 +
              (if RC.getReg σ r = e.1 then 1 else 0) =
              σ.regs.count e.1 + (if σ.next = e.1 then 1 else 0) :=
            count_set σ.regs σ.next r hr e.1
          have hsing := count_singleton_eq (RC.getReg σ r) e.1
          have hcrr := hcrf e.1
          show e.2.rc = (((σ.regs.set r σ.next).count e.1 +
              RC.childRefs ((cs.map (RC.getReg σ)).foldl RC.increfP
                ((σ.next, (⟨cs.map (RC.getReg σ), 1⟩ : RC.Node)) :: σ.heap)) e.1 +
              ([RC.getReg σ r] : List Nat).count e.1 : Nat) : Int)
          rw [hcrr, hsing]
          by_cases hq : σ.next = e.1
          · rw [show alookup ((σ.next, (⟨cs.map (RC.getReg σ), 1⟩ : RC.Node))
                :: σ.heap) e.1 = some ⟨cs.map (RC.getReg σ), 1⟩ from by
                  simp [alookup, hq]] at hlk1
            simp at hlk1
            have hrc1 : e.2.rc = 1 + ((cs.map (RC.getReg σ)).count e.1 : Int) := by
              rw [← hlk1]
            have hcr0e : RC.childRefs σ.heap e.1 = 0 := hq ▸ hcr0
            have hcnt0e : σ.regs.count e.1 = 0 := hq ▸ hcnt0
            have holdnee : RC.getReg σ r ≠ e.1 := hq ▸ holdne
            split_ifs at hcs ⊢ <;> omega
          · rw [show alookup ((σ.next, (⟨cs.map (RC.getReg σ), 1⟩ : RC.Node))
                :: σ.heap) e.1 = alookup σ.heap e.1 from by
                  simp [alookup, hq]] at hlk1
            rcases hlk0 : alookup σ.heap e.1 with _ | c0
            · rw [hlk0] at hlk1
              simp at hlk1
            · rw [hlk0] at hlk1
              simp at hlk1
              have hrc0 : c0.rc =
                  ((σ.regs.count e.1 + RC.childRefs σ.heap e.1 : Nat) : Int) :=
                i6 _ (mem_of_alookup_eq_some hlk0)
              have hrc1 : e.2.rc =
                  c0.rc + ((cs.map (RC.getReg σ)).count e.1 : Int) := by
                rw [← hlk1]
              split_ifs at hcs ⊢ <;> omega
        · intro e he
          have hlk1 := alookup_eq_some_of_mem hnd1 he
          rw [hlkfold] at hlk1
          by_cases hq : σ.next = e.1
          · rw [show alookup ((σ.next, (⟨cs.map (RC.getReg σ), 1⟩ : RC.Node))
                :: σ.heap) e.1 = some ⟨cs.map (RC.getReg σ), 1⟩ from by
                  simp [alookup, hq]] at hlk1
            simp at hlk1
            have hrc1 : e.2.rc = 1 + ((cs.map (RC.getReg σ)).count e.1 : Int) := by
              rw [← hlk1]
            omega
          · rw [show alookup ((σ.next, (⟨cs.map (RC.getReg σ), 1⟩ : RC.Node))
                :: σ.heap) e.1 = alookup σ.heap e.1 from by
                  simp [alookup, hq]] at hlk1
            rcases hlk0 : alookup σ.heap e.1 with _ | c0
            · rw [hlk0] at hlk1
              simp at hlk1
            · rw [hlk0] at hlk1
              simp at hlk1
              have h7 : (1 : Int) ≤ c0.rc := i7 _ (mem_of_alookup_eq_some hlk0)
              have hrc1 : e.2.rc =
                  c0.rc + ((cs.map (RC.getReg σ)).count e.1 : Int) := by
                rw [← hlk1]
              omega
      have hkb : ∀ a ∈ akeys ((cs.map (RC.getReg σ)).foldl RC.increfP
          ((σ.next, (⟨cs.map (RC.getReg σ), 1⟩ : RC.Node)) :: σ.heap)),
          1 ≤ a ∧ a < σ.next + 1 := by
        intro a ha
        rw [hk1] at ha
        rcases List.mem_cons.mp ha with h0 | h0
        · omega
        · have := i2 a h0
          omega
      have hregs' : ∀ p ∈ σ.regs.set r σ.next, p = 0 ∨
          p ∈ akeys ((cs.map (RC.getReg σ)).foldl RC.increfP
            ((σ.next, (⟨cs.map (RC.getReg σ), 1⟩ : RC.Node)) :: σ.heap)) := by
        intro p hp
        rw [hk1]
        rcases mem_set_cases _ _ _ hp with h0 | h0
        · exact Or.inr (h0 ▸ List.mem_cons_self _ _)
        · rcases i5 _ h0 with h2 | h2
          · exact Or.inl h2
          · exact Or.inr (List.mem_cons_of_mem _ h2)
      have hdisj1 : ∀ a ∈ σ.dead,
          a ∉ akeys ((cs.map (RC.getReg σ)).foldl RC.increfP
            ((σ.next, (⟨cs.map (RC.getReg σ), 1⟩ : RC.Node)) :: σ.heap)) := by
        intro a ha
        rw [hk1]
        intro hcon
        rcases List.mem_cons.mp hcon with h0 | h0
        · have := (i9 a ha).2
          omega
        · exact i10 a ha h0
      have hpart1 : ∀ a, a < σ.next + 1 → 1 ≤ a →
          a ∈ akeys ((cs.map (RC.getReg σ)).foldl RC.increfP
            ((σ.next, (⟨cs.map (RC.getReg σ), 1⟩ : RC.Node)) :: σ.heap))
          ∨ a ∈ σ.dead := by
        intro a ha h1a
        rw [hk1]
        by_cases haq : a = σ.next
        · exact Or.inl (haq ▸ List.mem_cons_self _ _)
        · rcases i11 a (by omega) h1a with h0 | h0
          · exact Or.inl (List.mem_cons_of_mem _ h0)
          · exact Or.inr h0
      have hdead_b : ∀ a ∈ σ.dead, 1 ≤ a ∧ a < σ.next + 1 := by
        intro a ha
        have := i9 a ha
        omega
      exact ⟨rebuild_inv σ _ _ _ _ hkb (by omega) hregs' hD hdisj1 hpart1
          hdead_b i8,
        by simp, by show σ.next ≤ σ.next + 1; omega⟩
    · have hred : RC.step σ (RC.Op.alloc r cs) = σ := by
        simp [RC.step, hr]
      rw [hred]
      exact ⟨⟨i1, i2, i3, i4, i5, i6, i7, i8, i9, i10, i11, i12⟩, rfl, le_refl _⟩

theorem run_inv (prog : List RC.Op) (σ : RC.St) (hinv : RC.Inv σ) :
    RC.Inv (RC.run σ prog) ∧ (RC.run σ prog).regs.length = σ.regs.length := by
  induction prog generalizing σ with
  | nil => exact ⟨hinv, rfl⟩
  | cons op rest ih =>
    have h1 := step_inv σ op hinv
    have h2 := ih (RC.step σ op) h1.1
    exact ⟨h2.1, h2.2.trans h1.2.1⟩

theorem step_regs_length (σ : RC.St) (op : RC.Op) :
    (RC.step σ op).regs.length = σ.regs.length := by
  cases op with
  | alloc r cs =>
    by_cases hr : r < σ.regs.length <;> simp [RC.step, hr]
  | copy r s =>
    by_cases hr : r < σ.regs.length <;> simp [RC.step, hr]
  | reset r =>
    by_cases hr : r < σ.regs.length <;> simp [RC.step, hr]

theorem set_getD_self (l : List Nat) {i : Nat} (hi : i < l.length) :
    l.set i (l.getD i 0) = l := by
  induction l generalizing i with
  | nil => rfl
  | cons x t ih =>
    cases i with
    | zero => simp
    | succ i' =>
      simp only [List.getD_cons_succ, List.set_cons_succ]
      rw [ih (by simp at hi; omega)]

theorem resetList_inv (l : List Nat) (σ : RC.St) (hinv : RC.Inv σ) :
    RC.Inv (RC.resetList σ l) ∧ (RC.resetList σ l).regs.length = σ.regs.length := by
  induction l generalizing σ with
  | nil => exact ⟨hinv, rfl⟩
  | cons r rest ih =>
    have h1 := step_inv σ (RC.Op.reset r) hinv
    have h2 := ih (RC.step σ (RC.Op.reset r)) h1.1
    exact ⟨h2.1, h2.2.trans h1.2.1⟩

theorem resetList_zero (l : List Nat) (σ : RC.St)
    (hpre : ∀ i, i < σ.regs.length → (i ∈ l ∨ σ.regs.getD i 0 = 0)) :
    ∀ i, i < (RC.resetList σ l).regs.length →
      (RC.resetList σ l).regs.getD i 0 = 0 := by
  induction l generalizing σ with
  | nil =>
    intro i hi
    rcases hpre i hi with h | h
    · simp at h
    · exact h
  | cons r rest ih =>
    intro i hi
    refine ih (RC.step σ (RC.Op.reset r)) ?_ i hi
    intro j hj
    have hj' : j < σ.regs.length := by
      rw [step_regs_length] at hj
      exact hj
    by_cases hr : r < σ.regs.length
    · have hred : (RC.step σ (RC.Op.reset r)).regs = σ.regs.set r 0 := by
        simp [RC.step, hr]
      by_cases hjr : j = r
      · right
        rw [hred, hjr]
        exact getD_set_self _ _ hr
      · rcases hpre j hj' with h | h
        · rcases List.mem_cons.mp h with h2 | h2
          · exact absurd h2 hjr
          · exact Or.inl h2
        · right
          rw [hred, getD_set_ne _ _ (fun hc => hjr hc.symm)]
          exact h
    · have hred : RC.step σ (RC.Op.reset r) = σ := by
        simp [RC.step, hr]
      rw [hred]
      rcases hpre j hj' with h | h
      · rcases List.mem_cons.mp h with h2 | h2
        · subst h2
          omega
        · exact Or.inl h2
      · exact Or.inr h

/-- In an invariant state where no address is referenced from any register,
the live heap must be empty: member references point strictly downward, so a
maximal live address would have count zero, contradicting positivity. -/
theorem heap_empty_of_no_refs (n : Nat) :
    ∀ h : RC.Heap, (∀ e ∈ h, ∀ c ∈ e.2.children, c < e.1) →
    (∀ e ∈ h, e.2.rc = ((RC.childRefs h e.1 : Nat) : Int)) →
    (∀ e ∈ h, 1 ≤ e.2.rc) →
    (∀ a ∈ akeys h, a < n) → h = [] := by
  induction n with
  | zero =>
    intro h hlt hcnt hpos hb
    cases h with
    | nil => rfl
    | cons e t =>
      have := hb e.1 (List.mem_map.mpr ⟨e, List.mem_cons_self _ _, rfl⟩)
      omega
  | succ n ih =>
    intro h hlt hcnt hpos hb
    by_cases hn : n ∈ akeys h
    · exfalso
      obtain ⟨e, he, he1⟩ := List.mem_map.mp hn
      have hrc := hcnt e he
      have hpos' := hpos e he
      have hcr : RC.childRefs h e.1 = 0 := by
        by_contra hcon
        have h1 : 1 ≤ RC.childRefs h e.1 := by omega
        obtain ⟨e', he', hc⟩ := childRefs_pos_exists h1
        have hlt1 := hlt e' he' _ hc
        have hb1 := hb e'.1 (List.mem_map.mpr ⟨e', he', rfl⟩)
        omega
      omega
    · refine ih h hlt hcnt hpos ?_
      intro a ha
      have := hb a ha
      have hane : a ≠ n := fun hc => hn (hc ▸ ha)
      omega

/-- C3: run any finite sequence of `IntrusivePtr` constructions, copies,
assignments and destructions (the reference graph is acyclic by construction:
a node's members always point at strictly earlier allocations), then destroy
every handle: the live heap is empty, the destruction log has no duplicates,
and it contains exactly the allocated addresses — every node was destroyed
(its count having reached exactly 0) precisely once: no leaks, no double
frees. -/
theorem refcount_no_leak_no_double_free (k : Nat) (prog : List RC.Op) :
    (RC.resetAll (RC.run (RC.init k) prog)).heap = [] ∧
    (RC.resetAll (RC.run (RC.init k) prog)).dead.Nodup ∧
    (∀ a, a ∈ (RC.resetAll (RC.run (RC.init k) prog)).dead ↔
      (1 ≤ a ∧ a < (RC.resetAll (RC.run (RC.init k) prog)).next)) := by
  have hinit : RC.Inv (RC.init k) := by
    refine ⟨List.nodup_nil, ?_, ?_, ?_, ?_, ?_, ?_, List.nodup_nil, ?_, ?_, ?_,
      le_refl _⟩
    · intro a ha
      simp [akeys, RC.init] at ha
    · intro e he
      simp [RC.init] at he
    · intro e he
      simp [RC.init] at he
    · intro p hp
      exact Or.inl (List.eq_of_mem_replicate hp)
    · intro e he
      simp [RC.init] at he
    · intro e he
      simp [RC.init] at he
    · intro a ha
      simp [RC.init] at ha
    · intro a ha
      simp [RC.init] at ha
    · intro a ha h1a
      simp [RC.init] at ha
      omega
  have hrun := run_inv prog (RC.init k) hinit
  have hra : RC.resetAll (RC.run (RC.init k) prog) =
      RC.resetList (RC.run (RC.init k) prog)
        (List.range (RC.run (RC.init k) prog).regs.length) := rfl
  have hreset := resetList_inv
    (List.range (RC.run (RC.init k) prog).regs.length)
    (RC.run (RC.init k) prog) hrun.1
  have hInvf : RC.Inv (RC.resetAll (RC.run (RC.init k) prog)) := by
    rw [hra]
    exact hreset.1
  have hzero : ∀ i, i < (RC.resetAll (RC.run (RC.init k) prog)).regs.length →
      (RC.resetAll (RC.run (RC.init k) prog)).regs.getD i 0 = 0 := by
    rw [hra]
    refine resetList_zero _ _ ?_
    intro i hi
    exact Or.inl (List.mem_range.mpr hi)
  obtain ⟨f1, f2, f3, f4, f5, f6, f7, f8, f9, f10, f11, f12⟩ := hInvf
  have hcnt0 : ∀ a, 1 ≤ a →
      (RC.resetAll (RC.run (RC.init k) prog)).regs.count a = 0 := by
    intro a ha
    refine List.count_eq_zero.mpr ?_
    intro hcon
    obtain ⟨i, hi, hia⟩ := List.mem_iff_getElem.mp hcon
    have hz := hzero i hi
    rw [List.getD_eq_getElem _ _ hi] at hz
    omega
  have hheap : (RC.resetAll (RC.run (RC.init k) prog)).heap = [] := by
    refine heap_empty_of_no_refs
      (RC.resetAll (RC.run (RC.init k) prog)).next _ f4 ?_ f7
      (fun a ha => (f2 a ha).2)
    intro e he
    have h6 := f6 e he
    have hkey := (f2 _ (List.mem_map.mpr ⟨e, he, rfl⟩)).1
    have hc0 := hcnt0 _ hkey
    rw [h6]
    omega
  refine ⟨hheap, f8, ?_⟩
  intro a
  constructor
  · intro ha
    exact f9 a ha
  · rintro ⟨h1a, h2a⟩
    rcases f11 a h2a h1a with h0 | h0
    · rw [hheap] at h0
      simp [akeys] at h0
    · exact h0

theorem decrefs_dead_mono (h : RC.Heap) (ds ps : List Nat) :
    ∀ a ∈ ds, a ∈ (RC.decrefs h ds ps).2 := by
  induction h, ds, ps using RC.decrefs.induct with
  | case1 h ds =>
    intro a ha
    rw [decrefs_nil]
    exact ha
  | case2 h ds ps' ih =>
    intro a ha
    rw [decrefs_zero]
    exact ih a ha
  | case3 h ds p ps' hp hl ih =>
    intro a ha
    rw [decrefs_none h ds ps' hp hl]
    exact ih a ha
  | case4 h ds p ps' hp nd hl hz ih =>
    intro a ha
    rw [decrefs_remove h ds ps' hp hl hz]
    exact ih a (List.mem_cons_of_mem _ ha)
  | case5 h ds p ps' hp nd hl hz ih =>
    intro a ha
    rw [decrefs_update h ds ps' hp hl hz]
    exact ih a ha

theorem decrefs_keys_subset (h : RC.Heap) (ds ps : List Nat) :
    ∀ a ∈ akeys (RC.decrefs h ds ps).1, a ∈ akeys h := by
  induction h, ds, ps using RC.decrefs.induct with
  | case1 h ds =>
    intro a ha
    rw [decrefs_nil] at ha
    exact ha
  | case2 h ds ps' ih =>
    intro a ha
    rw [decrefs_zero] at ha
    exact ih a ha
  | case3 h ds p ps' hp hl ih =>
    intro a ha
    rw [decrefs_none h ds ps' hp hl] at ha
    exact ih a ha
  | case4 h ds p ps' hp nd hl hz ih =>
    intro a ha
    rw [decrefs_remove h ds ps' hp hl hz] at ha
    have hsub := ih a ha
    rw [akeys_aremove] at hsub
    exact List.mem_of_mem_erase hsub
  | case5 h ds p ps' hp nd hl hz ih =>
    intro a ha
    rw [decrefs_update h ds ps' hp hl hz] at ha
    have hsub := ih a ha
    rw [akeys_aset] at hsub
    exact hsub

/-!
### C5 — RefCounted::decref deletes exactly at zero (`src/IntrusivePtr.h`)
-/

/-- C5: `RefCounted::decref` (`ref_count--; if (ref_count == 0) delete
this;`) destroys the object exactly when the decrement brings the count to 0:
the release through a live pointer logs a destruction iff the stored count
was 1; when the decremented count is nonzero the object is only updated in
place; and when the count was already at or below zero (re-entrant teardown
of a cycle) the count just goes negative and nothing is destroyed — `delete`
is never invoked for a count that goes below zero, so the destructor is not
re-entered. -/
theorem decref_deletes_iff_count_zero (h : RC.Heap) (ds : List Nat) (p : Nat)
    (nd : RC.Node) (hp : p ≠ 0) (hl : alookup h p = some nd)
    (hnd : (akeys h).Nodup) (hds : p ∉ ds) :
    (p ∈ (RC.decrefs h ds [p]).2 ↔ nd.rc - 1 = 0) ∧
    (nd.rc - 1 = 0 → p ∉ akeys (RC.decrefs h ds [p]).1) ∧
    (nd.rc - 1 ≠ 0 →
      RC.decrefs h ds [p] = (aset h p { nd with rc := nd.rc - 1 }, ds)) ∧
    (nd.rc ≤ 0 →
      alookup (RC.decrefs h ds [p]).1 p = some { nd with rc := nd.rc - 1 } ∧
      nd.rc - 1 < 0 ∧ (RC.decrefs h ds [p]).2 = ds) := by
  by_cases hz : nd.rc - 1 = 0
  · rw [decrefs_remove h ds [] hp hl hz]
    refine ⟨⟨fun _ => hz,
      fun _ => decrefs_dead_mono _ _ _ p (List.mem_cons_self _ _)⟩, ?_, ?_, ?_⟩
    · intro _ hcon
      have hsub := decrefs_keys_subset _ _ _ p hcon
      rw [akeys_aremove] at hsub
      exact (List.Nodup.not_mem_erase hnd) hsub
    · intro hcon
      exact absurd hz hcon
    · intro hle
      exact absurd hle (by omega)
  · rw [decrefs_update h ds [] hp hl hz, decrefs_nil]
    refine ⟨⟨fun hcon => absurd hcon hds, fun hcon => absurd hcon hz⟩,
      fun hcon => absurd hcon hz, fun _ => rfl, ?_⟩
    intro hle
    exact ⟨alookup_aset_self _ hl, by omega, rfl⟩

/-- C5 witness: a node with count 1 is destroyed by the release and leaves
the heap; a node whose count is already 0 (re-entrant teardown) is driven to
count −1, stays in the heap, and nothing is destroyed. -/
theorem decref_deletes_iff_count_zero_witness :
    (1 ∈ (RC.decrefs [(1, ⟨[], 1⟩)] [] [1]).2) ∧
    (1 ∉ akeys (RC.decrefs [(1, ⟨[], 1⟩)] [] [1]).1) ∧
    (alookup (RC.decrefs [(5, ⟨[], 0⟩)] [] [5]).1 5 =
        some ⟨[], (0 : Int) - 1⟩ ∧
      (0 : Int) - 1 < 0 ∧ (RC.decrefs [(5, ⟨[], 0⟩)] [] [5]).2 = []) :=
  ⟨(decref_deletes_iff_count_zero [(1, ⟨[], 1⟩)] [] 1 ⟨[], 1⟩ (by decide) rfl
      (by decide) (by decide)).1.mpr (by decide),
   (decref_deletes_iff_count_zero [(1, ⟨[], 1⟩)] [] 1 ⟨[], 1⟩ (by decide) rfl
      (by decide) (by decide)).2.1 (by decide),
   (decref_deletes_iff_count_zero [(5, ⟨[], 0⟩)] [] 5 ⟨[], 0⟩ (by decide) rfl
      (by decide) (by decide)).2.2.2 (by decide)⟩

/-!
### C6 — operator= increfs the source first (`src/IntrusivePtr.h`)
-/

/-- C6: `IntrusivePtr::operator=` increfs the source before decrefing the old
target.  Consequently self-assignment `h = h` leaves the state completely
unchanged (the node stays alive with its count unchanged), and assigning into
`h` from the member handle of the object `h` exclusively owns keeps the
member's node alive with its count unchanged, even though the owning object
itself is destroyed during the assignment. -/
theorem assign_incref_before_decref_safe (σ : RC.St) (r : Nat)
    (hinv : RC.Inv σ) (hr : r < σ.regs.length) :
    (RC.getReg σ r ≠ 0 → RC.step σ (RC.Op.copy r r) = σ) ∧
    (∀ b m ndm, RC.getReg σ r = b → b ≠ 0 →
      alookup σ.heap b = some ⟨[m], 1⟩ → m ≠ 0 →
      alookup σ.heap m = some ndm →
      RC.getReg (RC.assignFromChild σ r 0) r = m ∧
      alookup (RC.assignFromChild σ r 0).heap m = some ndm ∧
      b ∉ akeys (RC.assignFromChild σ r 0).heap ∧
      b ∈ (RC.assignFromChild σ r 0).dead) := by
  obtain ⟨i1, i2, i3, i4, i5, i6, i7, i8, i9, i10, i11, i12⟩ := hinv
  constructor
  · intro hne
    have hmem : RC.getReg σ r ∈ σ.regs := getD_mem _ hr
    rcases i5 _ hmem with h0 | hk
    · exact absurd h0 hne
    · have hsome := (alookup_isSome_iff_mem_akeys _ _).mpr hk
      rcases hlk : alookup σ.heap (RC.getReg σ r) with _ | nd
      · rw [hlk] at hsome
        simp at hsome
      · have hpos : (1 : Int) ≤ nd.rc := i7 _ (mem_of_alookup_eq_some hlk)
        have hred : RC.step σ (RC.Op.copy r r) =
            { σ with
              heap := (RC.decrefs (RC.increfP σ.heap (RC.getReg σ r)) σ.dead
                [RC.getReg σ r]).1,
              dead := (RC.decrefs (RC.increfP σ.heap (RC.getReg σ r)) σ.dead
                [RC.getReg σ r]).2,
              regs := σ.regs.set r (RC.getReg σ r) } := by
          simp [RC.step, hr]
        have hinc : RC.increfP σ.heap (RC.getReg σ r) =
            aset σ.heap (RC.getReg σ r) { nd with rc := nd.rc + 1 } := by
          rw [RC.increfP, if_neg hne, hlk]
        have hlk1 : alookup (aset σ.heap (RC.getReg σ r)
            { nd with rc := nd.rc + 1 }) (RC.getReg σ r) =
            some { nd with rc := nd.rc + 1 } := alookup_aset_self _ hlk
        have hz : ¬ ({ nd with rc := nd.rc + 1 } : RC.Node).rc - 1 = 0 := by
          show ¬ nd.rc + 1 - 1 = 0
          omega
        have hdec : RC.decrefs (aset σ.heap (RC.getReg σ r)
              { nd with rc := nd.rc + 1 }) σ.dead [RC.getReg σ r] =
            (aset (aset σ.heap (RC.getReg σ r) { nd with rc := nd.rc + 1 })
              (RC.getReg σ r)
              { children := nd.children, rc := nd.rc + 1 - 1 }, σ.dead) := by
          rw [decrefs_update _ σ.dead [] hne hlk1 hz, decrefs_nil]
        rw [hred, hinc, hdec]
        have hcollapse : aset (aset σ.heap (RC.getReg σ r)
            { nd with rc := nd.rc + 1 }) (RC.getReg σ r)
            { children := nd.children, rc := nd.rc + 1 - 1 } = σ.heap := by
          rw [aset_aset]
          rw [show ({ children := nd.children, rc := nd.rc + 1 - 1 } : RC.Node)
            = nd from by rw [show nd.rc + 1 - 1 = nd.rc from by omega]]
          exact aset_lookup_self hlk
        rw [hcollapse]
        rw [show RC.getReg σ r = σ.regs.getD r 0 from rfl, set_getD_self _ hr]
  · intro b m ndm hgb hb0 hlb hm0 hlm
    have hmb : m < b := i4 _ (mem_of_alookup_eq_some hlb) m (by simp)
    have hred : RC.assignFromChild σ r 0 =
        { σ with
          heap := (RC.decrefs (RC.increfP σ.heap m) σ.dead [b]).1,
          dead := (RC.decrefs (RC.increfP σ.heap m) σ.dead [b]).2,
          regs := σ.regs.set r m } := by
      simp [RC.assignFromChild, hr, hgb, hlb]
    have hinc : RC.increfP σ.heap m =
        aset σ.heap m { ndm with rc := ndm.rc + 1 } := by
      rw [RC.increfP, if_neg hm0, hlm]
    have hlkb1 : alookup (aset σ.heap m { ndm with rc := ndm.rc + 1 }) b =
        some ⟨[m], 1⟩ := by
      rw [alookup_aset_ne _ _ (fun hc : b = m => by omega)]
      exact hlb
    have hzb : ((⟨[m], 1⟩ : RC.Node)).rc - 1 = 0 := by
      show (1 : Int) - 1 = 0
      decide
    have hstep1 : RC.decrefs (aset σ.heap m { ndm with rc := ndm.rc + 1 })
        σ.dead [b]
        = RC.decrefs (aremove (aset σ.heap m { ndm with rc := ndm.rc + 1 }) b)
          (b :: σ.dead) [m] := by
      have hx := decrefs_remove (aset σ.heap m { ndm with rc := ndm.rc + 1 })
        σ.dead [] hb0 hlkb1 hzb
      simpa using hx
    have hlkm2 : alookup
        (aremove (aset σ.heap m { ndm with rc := ndm.rc + 1 }) b) m
        = some { ndm with rc := ndm.rc + 1 } := by
      rw [alookup_aremove_ne _ (fun hc : m = b => by omega)]
      exact alookup_aset_self _ hlm
    have hposm : (1 : Int) ≤ ndm.rc := i7 _ (mem_of_alookup_eq_some hlm)
    have hzm : ¬ ({ ndm with rc := ndm.rc + 1 } : RC.Node).rc - 1 = 0 := by
      show ¬ ndm.rc + 1 - 1 = 0
      omega
    have hstep2 : RC.decrefs
        (aremove (aset σ.heap m { ndm with rc := ndm.rc + 1 }) b)
        (b :: σ.dead) [m]
        = (aset (aremove (aset σ.heap m { ndm with rc := ndm.rc + 1 }) b) m
            { children := ndm.children, rc := ndm.rc + 1 - 1 }, b :: σ.dead) := by
      rw [decrefs_update _ _ [] hm0 hlkm2 hzm, decrefs_nil]
    rw [hred, hinc, hstep1, hstep2]
    refine ⟨?_, ?_, ?_, ?_⟩
    · show (σ.regs.set r m).getD r 0 = m
      exact getD_set_self _ _ hr
    · show alookup (aset (aremove
          (aset σ.heap m { ndm with rc := ndm.rc + 1 }) b) m
          { children := ndm.children, rc := ndm.rc + 1 - 1 }) m = some ndm
      rw [alookup_aset_self _ hlkm2]
      rw [show ({ children := ndm.children, rc := ndm.rc + 1 - 1 } : RC.Node)
        = ndm from by rw [show ndm.rc + 1 - 1 = ndm.rc from by omega]]
    · show b ∉ akeys (aset (aremove
          (aset σ.heap m { ndm with rc := ndm.rc + 1 }) b) m
          { children := ndm.children, rc := ndm.rc + 1 - 1 })
      rw [akeys_aset, akeys_aremove, akeys_aset]
      exact List.Nodup.not_mem_erase i1
    · show b ∈ b :: σ.dead
      exact List.mem_cons_self _ _

/-- C6 witness: in the two-node state, self-assigning handle 0 is the
identity, and assigning handle 0 from the member handle of the node it owns
leaves the member node alive at count 1 while the owner is destroyed. -/
theorem assign_incref_before_decref_safe_witness :
    RC.step RC.c6State (RC.Op.copy 0 0) = RC.c6State ∧
    (RC.getReg (RC.assignFromChild RC.c6State 0 0) 0 = 1 ∧
      alookup (RC.assignFromChild RC.c6State 0 0).heap 1 = some ⟨[], 1⟩ ∧
      2 ∉ akeys (RC.assignFromChild RC.c6State 0 0).heap ∧
      2 ∈ (RC.assignFromChild RC.c6State 0 0).dead) :=
  ⟨(assign_incref_before_decref_safe RC.c6State 0
      (by unfold RC.Inv; decide) (by decide)).1 (by decide),
   (assign_incref_before_decref_safe RC.c6State 0
      (by unfold RC.Inv; decide) (by decide)).2
      2 1 ⟨[], 1⟩ rfl (by decide) rfl (by decide) rfl⟩

/-!
### C2 / C10 — Schedule::add_specialization (`src/Schedule.cpp`)
-/

/-- Closed form of `add_specialization` on a live parent: the child contents
object sits at the fresh address with the parent's fields, an empty
specialization list — and the parent's `ref_count` value (the copy-assignment
overwrote the child's count 1; the push_back/temporary-destruction pair then
cancels) — while the parent gains exactly the one appended record. -/
theorem add_specialization_eq (st : Sched.SState) (parent cond : Nat)
    (pc : Sched.ScheduleContents)
    (hlk : alookup st.heap parent = some pc)
    (hpn : parent ≠ st.next) (hn0 : st.next ≠ 0)
    (hrc : 1 ≤ pc.ref_count) :
    Sched.Schedule.add_specialization st parent cond =
      { heap := (st.next, { pc with specializations := [] }) ::
          aset st.heap parent
            { pc with
              specializations := pc.specializations ++ [⟨cond, st.next⟩] },
        next := st.next + 1 } := by
  have hne0 : pc.ref_count ≠ 0 := by omega
  simp [Sched.Schedule.add_specialization, hlk, Sched.incS, Sched.decS,
    alookup, aset, hn0, Ne.symm hpn, hne0]

/-- C2: on a well-formed state, `S.add_specialization(cond)` appends exactly
one record (condition `cond`, child at the fresh address) to
`S.specializations()`; the child holds a deep copy of `S`'s current fields
with an empty specialization list; and the two dimension lists are
independent afterwards — writing the child's `dims()` leaves `S.dims()` at
its old value (and vice versa), while each write does take effect on its own
schedule. -/
theorem add_specialization_spec (st : Sched.SState) (parent cond : Nat)
    (pc : Sched.ScheduleContents)
    (hlk : alookup st.heap parent = some pc)
    (hb : ∀ a ∈ akeys st.heap, 1 ≤ a ∧ a < st.next)
    (hrc : 1 ≤ pc.ref_count) :
    alookup (Sched.Schedule.add_specialization st parent cond).heap parent =
      some { pc with
             specializations := pc.specializations ++ [⟨cond, st.next⟩] } ∧
    alookup (Sched.Schedule.add_specialization st parent cond).heap st.next =
      some { pc with specializations := [] } ∧
    (∀ d : List Sched.Dim,
      Sched.dimsOf (Sched.Schedule.dims_set
        (Sched.Schedule.add_specialization st parent cond) st.next d) parent
        = some pc.dims ∧
      Sched.dimsOf (Sched.Schedule.dims_set
        (Sched.Schedule.add_specialization st parent cond) st.next d) st.next
        = some d ∧
      Sched.dimsOf (Sched.Schedule.dims_set
        (Sched.Schedule.add_specialization st parent cond) parent d) st.next
        = some pc.dims ∧
      Sched.dimsOf (Sched.Schedule.dims_set
        (Sched.Schedule.add_specialization st parent cond) parent d) parent
        = some d) := by
  have hbp := hb parent (mem_akeys_of_alookup hlk)
  have hpn : parent ≠ st.next := by omega
  have hn0 : st.next ≠ 0 := by omega
  rw [add_specialization_eq st parent cond pc hlk hpn hn0 hrc]
  have hlkpar : alookup
      ((st.next, { pc with specializations := [] }) ::
        aset st.heap parent
          { pc with
            specializations := pc.specializations ++ [⟨cond, st.next⟩] })
      parent =
      some { pc with
             specializations := pc.specializations ++ [⟨cond, st.next⟩] } := by
    simp only [alookup, if_neg (Ne.symm hpn)]
    exact alookup_aset_self _ hlk
  have hlkn : alookup
      ((st.next, { pc with specializations := [] }) ::
        aset st.heap parent
          { pc with
            specializations := pc.specializations ++ [⟨cond, st.next⟩] })
      st.next = some { pc with specializations := [] } := by
    simp [alookup]
  refine ⟨hlkpar, hlkn, ?_⟩
  intro d
  refine ⟨?_, ?_, ?_, ?_⟩
  · rw [Sched.Schedule.dims_set, hlkn]
    simp only [Sched.dimsOf]
    simp only [aset, if_pos rfl, alookup, if_neg (Ne.symm hpn)]
    rw [alookup_aset_self _ hlk]
    rfl
  · rw [Sched.Schedule.dims_set, hlkn]
    simp only [Sched.dimsOf]
    simp only [aset, if_pos rfl, alookup, if_pos rfl]
    rfl
  · rw [Sched.Schedule.dims_set, hlkpar]
    simp only [Sched.dimsOf]
    simp only [aset, if_neg (fun hcon : st.next = parent => hpn hcon.symm),
      alookup, if_pos rfl]
    rfl
  · rw [Sched.Schedule.dims_set, hlkpar]
    simp only [Sched.dimsOf]
    simp only [aset, if_neg (fun hcon : st.next = parent => hpn hcon.symm),
      alookup, if_neg (Ne.symm hpn)]
    rw [aset_aset, alookup_aset_self _ hlk]
    rfl

/-- C2 witness: the theorem evaluated on a parent contents object at address
1 (count 2, one dimension), condition 5: the record is appended and the
parent's dimension list survives a write through the child. -/
theorem add_specialization_spec_witness :
    alookup (Sched.Schedule.add_specialization Sched.twoOwnerState 1 5).heap 1 =
      some { Sched.twoOwnerContents with
             specializations :=
               Sched.twoOwnerContents.specializations ++ [⟨5, 2⟩] } ∧
    Sched.dimsOf (Sched.Schedule.dims_set
      (Sched.Schedule.add_specialization Sched.twoOwnerState 1 5) 2
      [⟨"y", Sched.ForType.Parallel, Sched.DeviceAPI.Host⟩]) 1
      = some Sched.twoOwnerContents.dims :=
  ⟨(add_specialization_spec Sched.twoOwnerState 1 5 Sched.twoOwnerContents
      (by decide) (by decide) (by decide)).1,
   ((add_specialization_spec Sched.twoOwnerState 1 5 Sched.twoOwnerContents
      (by decide) (by decide) (by decide)).2.2
      [⟨"y", Sched.ForType.Parallel, Sched.DeviceAPI.Host⟩]).1⟩

/-- C10: the field-by-field copy in `add_specialization` DOES overwrite the
child's reference count with the parent's.  Evaluated at a parent whose
contents object is aliased by two `Schedule` handles (stored count 2): after
the call the child's stored count is 2 — not 1 — although exactly one
reference (the appended specialization record) exists, so the child contents
object can never be freed. -/
theorem add_specialization_refcount_bug :
    ((alookup (Sched.Schedule.add_specialization Sched.twoOwnerState 1 5).heap
        2).map Sched.ScheduleContents.ref_count = some 2) ∧
    Sched.specRefs (Sched.Schedule.add_specialization Sched.twoOwnerState 1 5)
      2 = 1 ∧
    ¬ ((alookup (Sched.Schedule.add_specialization Sched.twoOwnerState 1 5).heap
        2).map Sched.ScheduleContents.ref_count = some 1) := by
  decide

/-!
### C1 — downcast safety (`IRHandle::as`)
-/

/-- C1 counterexample: on an undefined handle, `as<T>()` does not return
null — `node_type()` dereferences the null pointer (modelled `Except.error`),
so the claim's "returns null rather than crashing" fails at the concrete input
of an undefined handle with `T = IntImm`. -/
theorem as_on_undefined_handle_faults :
    IRH.IRHandle.as IRH.emptyHeap IRH.IRNodeType.IntImmT ⟨0⟩ = Except.error () ∧
    IRH.IRHandle.as IRH.emptyHeap IRH.IRNodeType.IntImmT ⟨0⟩ ≠ Except.ok none := by
  refine ⟨rfl, ?_⟩
  intro hcon
  simp [IRH.IRHandle.as, IRH.IRHandle.node_type] at hcon

/-- C1 (amended): for every DEFINED handle `h` (pointing at a live node `n`)
and every concrete node type `T`, `h.as<T>()` returns the non-null pointer to
the node iff `n`'s dynamic type is exactly `T`; for a different concrete type
it returns null; and on an undefined handle it dereferences a null pointer
inside `node_type()` (modelled as a fault) instead of returning null. -/
theorem downcast_as_spec (heap : IRH.NodeHeap) (h : IRH.IRHandle) (n : IRH.IRNodeV)
    (T : IRH.IRNodeType) (hdef : h.ptr ≠ 0) (hn : heap h.ptr = some n) :
    (IRH.IRHandle.as heap T h = Except.ok (some h.ptr) ↔ IRH.nodeTypeOf n = T) ∧
    (IRH.nodeTypeOf n ≠ T → IRH.IRHandle.as heap T h = Except.ok none) ∧
    (∀ T' : IRH.IRNodeType,
      IRH.IRHandle.as heap T' ⟨0⟩ = Except.error ()) := by
  have hnt : IRH.IRHandle.node_type heap h = Except.ok (IRH.nodeTypeOf n) := by
    simp [IRH.IRHandle.node_type, hdef, hn]
  refine ⟨?_, ?_, ?_⟩
  · rw [IRH.IRHandle.as, hnt]
    by_cases ht : IRH.nodeTypeOf n = T
    · simp [ht]
    · simp [ht]
  · intro ht
    rw [IRH.IRHandle.as, hnt]
    simp [ht]
  · intro T'
    rfl

/-- C1 witness: the amended theorem evaluated on the one-node memory at the
defined handle to the `IntImm 3` node. -/
theorem downcast_as_spec_witness :
    (IRH.IRHandle.as IRH.oneNodeHeap IRH.IRNodeType.IntImmT ⟨1⟩ =
        Except.ok (some (IRH.IRHandle.mk 1).ptr) ↔
      IRH.nodeTypeOf (IRH.IRNodeV.intImm 3) = IRH.IRNodeType.IntImmT) ∧
    (IRH.nodeTypeOf (IRH.IRNodeV.intImm 3) ≠ IRH.IRNodeType.IntImmT →
      IRH.IRHandle.as IRH.oneNodeHeap IRH.IRNodeType.IntImmT ⟨1⟩ = Except.ok none) ∧
    (∀ T' : IRH.IRNodeType,
      IRH.IRHandle.as IRH.oneNodeHeap T' ⟨0⟩ = Except.error ()) :=
  downcast_as_spec IRH.oneNodeHeap ⟨1⟩ (IRH.IRNodeV.intImm 3) IRH.IRNodeType.IntImmT
    (by decide) rfl

/-!
### C9 — strict weak order and identity (`IRHandle::Compare`, `same_as`)
-/

/-- C9: the comparator `IRHandle::Compare` (underlying pointer order) is a
strict weak ordering — irreflexive, transitive, with transitive
incomparability — and it is consistent with identity: `a.same_as(b)` holds
iff neither `Compare(a,b)` nor `Compare(b,a)` does, and `same_as` is exactly
pointer identity (so it is independent of any structural equality of the
referenced nodes). -/
theorem compare_strict_weak_order :
    (∀ a : IRH.IRHandle, IRH.IRHandle.Compare a a = false) ∧
    (∀ a b c : IRH.IRHandle, IRH.IRHandle.Compare a b = true →
      IRH.IRHandle.Compare b c = true → IRH.IRHandle.Compare a c = true) ∧
    (∀ a b c : IRH.IRHandle,
      (IRH.IRHandle.Compare a b = false ∧ IRH.IRHandle.Compare b a = false) →
      (IRH.IRHandle.Compare b c = false ∧ IRH.IRHandle.Compare c b = false) →
      (IRH.IRHandle.Compare a c = false ∧ IRH.IRHandle.Compare c a = false)) ∧
    (∀ a b : IRH.IRHandle,
      IRH.IRHandle.same_as a b = true ↔
        (IRH.IRHandle.Compare a b = false ∧ IRH.IRHandle.Compare b a = false)) ∧
    (∀ a b : IRH.IRHandle, IRH.IRHandle.same_as a b = true ↔ a.ptr = b.ptr) := by
  refine ⟨?_, ?_, ?_, ?_, ?_⟩
  · intro a
    simp [IRH.IRHandle.Compare]
  · intro a b c hab hbc
    simp [IRH.IRHandle.Compare] at *
    omega
  · intro a b c hab hbc
    simp [IRH.IRHandle.Compare] at *
    omega
  · intro a b
    simp [IRH.IRHandle.Compare, IRH.IRHandle.same_as]
    omega
  · intro a b
    simp [IRH.IRHandle.same_as]

/-- C9 witness: transitivity and the identity characterisation applied at
concrete handles. -/
theorem compare_strict_weak_order_witness :
    IRH.IRHandle.Compare ⟨1⟩ ⟨3⟩ = true ∧ IRH.IRHandle.same_as ⟨2⟩ ⟨2⟩ = true :=
  ⟨compare_strict_weak_order.2.1 ⟨1⟩ ⟨2⟩ ⟨3⟩ (by decide) (by decide),
   (compare_strict_weak_order.2.2.2.2 ⟨2⟩ ⟨2⟩).mpr rfl⟩

/-!
### C4 — small-integer interning (`IntImm::make`)
-/

/-- C4: with the static pool initialised (every cache count nonzero, as the
spec's "permanently incremented reference count" guarantees), two calls to
`IntImm::make(v)` for `-8 ≤ v ≤ 8` return the identical cached node, so the
adopting handles are `same_as`; for any `v` outside that range each call
allocates a fresh node, so the two handles are not `same_as`. -/
theorem intimm_interning_spec (st : IntImmAlloc.AllocState) (v : Int)
    (hcache : ∀ k, st.cacheRef k ≠ 0) :
    ((-8 ≤ v ∧ v ≤ 8) →
      IntImmAlloc.sameAs (IntImmAlloc.IntImm.make st v).1
        (IntImmAlloc.IntImm.make (IntImmAlloc.IntImm.make st v).2 v).1 = true) ∧
    ((v < -8 ∨ 8 < v) →
      IntImmAlloc.sameAs (IntImmAlloc.IntImm.make st v).1
        (IntImmAlloc.IntImm.make (IntImmAlloc.IntImm.make st v).2 v).1 = false) := by
  constructor
  · rintro ⟨h1, h2⟩
    have hg : (-8 ≤ v ∧ v ≤ 8 ∧ st.cacheRef (v + 8).toNat ≠ 0) :=
      ⟨h1, h2, hcache _⟩
    simp [IntImmAlloc.IntImm.make, hg, IntImmAlloc.sameAs]
  · intro hout
    have hg : ∀ st' : IntImmAlloc.AllocState,
        ¬(-8 ≤ v ∧ v ≤ 8 ∧ st'.cacheRef (v + 8).toNat ≠ 0) := by
      intro st' hcon
      obtain ⟨h1, h2, _⟩ := hcon
      rcases hout with h | h <;> omega
    simp only [IntImmAlloc.IntImm.make, if_neg (hg _), IntImmAlloc.sameAs]
    simp

/-- C4 witness: value `3` is interned (identical node twice), value `9` is
allocated fresh twice, starting from the initialised pool state. -/
theorem intimm_interning_spec_witness :
    IntImmAlloc.sameAs (IntImmAlloc.IntImm.make IntImmAlloc.initState 3).1
      (IntImmAlloc.IntImm.make
        (IntImmAlloc.IntImm.make IntImmAlloc.initState 3).2 3).1 = true ∧
    IntImmAlloc.sameAs (IntImmAlloc.IntImm.make IntImmAlloc.initState 9).1
      (IntImmAlloc.IntImm.make
        (IntImmAlloc.IntImm.make IntImmAlloc.initState 9).2 9).1 = false :=
  ⟨(intimm_interning_spec IntImmAlloc.initState 3
      (fun k => by simp [IntImmAlloc.initState])).1 (by constructor <;> decide),
   (intimm_interning_spec IntImmAlloc.initState 9
      (fun k => by simp [IntImmAlloc.initState])).2 (Or.inr (by decide))⟩

/-!
### C8 — double-literal narrowing (`Expr::Expr(double)`)
-/

/-- C8: constructing an `Expr` from a double `x` yields a defined handle to a
`FloatImm` node whose value is the single-precision narrowing of `x`, appends
exactly one narrowing warning reporting the original value together with the
suggested `cast<double>(x[.0f|f])` spelling, and returns normally (a value,
not a failure). -/
theorem expr_of_double_narrowing {D F : Type} (narrow : D → F)
    (isIntegral : D → Bool) (st : FloatNarrow.EState D F) (x : D)
    (hnn : 1 ≤ st.next) :
    (FloatNarrow.exprOfDouble narrow isIntegral st x).1 ≠ 0 ∧
    alookup (FloatNarrow.exprOfDouble narrow isIntegral st x).2.heap
      (FloatNarrow.exprOfDouble narrow isIntegral st x).1 = some (narrow x) ∧
    (FloatNarrow.exprOfDouble narrow isIntegral st x).2.warnings =
      st.warnings ++
        [{ original := x, castSuffix := if isIntegral x then ".0f" else "f" }] := by
  refine ⟨by simp [FloatNarrow.exprOfDouble, FloatNarrow.FloatImm.make]; omega,
          ?_, ?_⟩
  · simp [FloatNarrow.exprOfDouble, FloatNarrow.FloatImm.make, alookup]
  · simp [FloatNarrow.exprOfDouble, FloatNarrow.FloatImm.make]

/-- C8 witness: the construction evaluated from the empty state at a concrete
(abstracted) double value. -/
theorem expr_of_double_narrowing_witness :
    (FloatNarrow.exprOfDouble (fun z : Int => z) (fun _ => true)
        ⟨[], 1, []⟩ 2).1 ≠ 0 ∧
    alookup (FloatNarrow.exprOfDouble (fun z : Int => z) (fun _ => true)
        ⟨[], 1, []⟩ 2).2.heap
      (FloatNarrow.exprOfDouble (fun z : Int => z) (fun _ => true)
        ⟨[], 1, []⟩ 2).1 = some 2 ∧
    (FloatNarrow.exprOfDouble (fun z : Int => z) (fun _ => true)
        ⟨[], 1, []⟩ 2).2.warnings =
      ([] : List (FloatNarrow.Warning Int)) ++
        [{ original := 2, castSuffix := if (fun _ : Int => true) 2 then ".0f" else "f" }] :=
  expr_of_double_narrowing (fun z : Int => z) (fun _ => true) ⟨[], 1, []⟩ 2
    (by decide)

end HalideModel
